import Mathlib

/-
  Verification of the Evergreen core (IDL schema registry, wire codec,
  query compiler and row mapper) against its specification.

  The definitions below are a shallow embedding of `src/idl.rs` and
  `src/idldb.rs`.  JSON values (the `json` crate) are modelled with
  objects as insertion-ordered association lists, which is how the crate
  stores them; the crate's `PartialEq` on objects is key-based and
  order-insensitive, and is modelled separately as `jeq`.
-/

set_option maxHeartbeats 1000000

namespace Evergreen

/-- The single-quote character, written via its code point. -/
def sq : Char := Char.ofNat 39

/-- The single-quote character as a string. -/
def sqs : String := String.mk [sq]

/-- Model of `json::JsonValue`.  The crate's `Short` and `String`
variants are both strings and are collapsed into `str`; numbers are
modelled as integers (the claims only exercise integral literals). -/
inductive JsonValue where
  | null
  | boolean (b : Bool)
  | num (n : Int)
  | str (s : String)
  | arr (elems : List JsonValue)
  | obj (entries : List (String × JsonValue))
deriving Repr

namespace JsonValue

def isArray : JsonValue → Bool
  | .arr _ => true
  | _ => false

def isObject : JsonValue → Bool
  | .obj _ => true
  | _ => false

def isString : JsonValue → Bool
  | .str _ => true
  | _ => false

def isNumber : JsonValue → Bool
  | .num _ => true
  | _ => false

def isBoolean : JsonValue → Bool
  | .boolean _ => true
  | _ => false

def isNull : JsonValue → Bool
  | .null => true
  | _ => false

/-- First-match lookup in an object's entry list (`Object::get`). -/
def getKey (k : String) : List (String × JsonValue) → Option JsonValue
  | [] => none
  | (k', v) :: rest => if k' = k then some v else getKey k rest

/-- `JsonValue::has_key`. -/
def hasKey (v : JsonValue) (k : String) : Bool :=
  match v with
  | .obj kvs => (getKey k kvs).isSome
  | _ => false

/-- Indexing an object by key (`value[key]`): the stored value, or
`Null` when the key is missing or the value is not an object. -/
def indexKey (v : JsonValue) (k : String) : JsonValue :=
  match v with
  | .obj kvs => (getKey k kvs).getD .null
  | _ => .null

/-- Indexing by position (`value[usize]`): the element, or `Null` when
out of range or the value is not an array. -/
def indexNat (v : JsonValue) (i : Nat) : JsonValue :=
  match v with
  | .arr elems => elems.getD i .null
  | _ => .null

/-- `Object::insert`: replace the value at an existing key in place,
otherwise append the new entry. -/
def objInsert (k : String) (v : JsonValue) :
    List (String × JsonValue) → List (String × JsonValue)
  | [] => [(k, v)]
  | (k', v') :: rest =>
    if k' = k then (k', v) :: rest else (k', v') :: objInsert k v rest

/-- Folding `Object::insert` over a list of entries (building a fresh
object by repeated insertion, as the source loops do). -/
def objInsertAll (acc : List (String × JsonValue)) :
    List (String × JsonValue) → List (String × JsonValue)
  | [] => acc
  | (k, v) :: rest => objInsertAll (objInsert k v acc) rest

/-- `as_str`: the payload of a string value. -/
def asStr : JsonValue → Option String
  | .str s => some s
  | _ => none

/-- The members of an array (`members()` yields nothing for
non-arrays). -/
def membersList : JsonValue → List JsonValue
  | .arr elems => elems
  | _ => []

/-- The entries of an object (`entries()` yields nothing for
non-objects). -/
def entriesList : JsonValue → List (String × JsonValue)
  | .obj kvs => kvs
  | _ => []

end JsonValue

/-! ### SQL string escaping (`str::replace("'", "''")`) -/

/-- `s.replace(single-quote, two single-quotes)` on the character list:
every quote character is doubled, all other characters pass through. -/
def sqlEscapeChars : List Char → List Char
  | [] => []
  | c :: cs =>
    if c = sq then sq :: sq :: sqlEscapeChars cs
    else c :: sqlEscapeChars cs

/-- String version of `sqlEscapeChars`. -/
def sqlEscape (s : String) : String := String.mk (sqlEscapeChars s.data)

/-- Undo quote doubling: each doubled quote collapses to one quote. -/
def undouble : List Char → List Char
  | [] => []
  | [c] => [c]
  | c :: c' :: cs =>
    if c = sq then
      if c' = sq then sq :: undouble cs else c :: undouble (c' :: cs)
    else c :: undouble (c' :: cs)

/-- An SQL lexer for the tail of a quoted string literal: the input
starts right after the opening quote.  A doubled quote is content; a
lone quote closes the literal.  Returns the decoded content and the
rest of the input. -/
def scanLit : List Char → Option (List Char × List Char)
  | [] => none
  | [c] => if c = sq then some ([], []) else none
  | c :: c' :: cs =>
    if c = sq then
      if c' = sq then (scanLit cs).map (fun p => (sq :: p.1, p.2))
      else some ([], c' :: cs)
    else (scanLit (c' :: cs)).map (fun p => (c :: p.1, p.2))

/-! ### IDL data model (`src/idl.rs`) -/

/-- The reserved class-identity key added to unpacked objects
(`CLASSNAME_KEY` in `idl.rs`). -/
def CLASSNAME_KEY : String := "_classname"

/-- The three bookkeeping fields (`AUTO_FIELDS` in `idl.rs`). -/
def AUTO_FIELDS : List String := ["isnew", "ischanged", "isdeleted"]

/-- `idl::DataType`. -/
inductive DataType where
  | int
  | float
  | text
  | boolean
  | link
  | timestamp
deriving Repr, DecidableEq

/-- `From<&str> for DataType`: unknown names default to `Text`. -/
def DataType.fromStr (s : String) : DataType :=
  if s = "int" then .int
  else if s = "float" then .float
  else if s = "text" then .text
  else if s = "bool" then .boolean
  else if s = "timestamp" then .timestamp
  else if s = "link" then .link
  else .text

/-- `idl::Field`. -/
structure Field where
  name : String
  label : String
  datatype : DataType
  i18n : Bool
  array_pos : Nat
  is_virtual : Bool
deriving Repr, DecidableEq

/-- `idl::RelType`. -/
inductive RelType where
  | hasA
  | hasMany
  | mightHave
  | unset
deriving Repr, DecidableEq

/-- `From<&str> for RelType`. -/
def RelType.fromStr (s : String) : RelType :=
  if s = "has_a" then .hasA
  else if s = "has_many" then .hasMany
  else if s = "might_have" then .mightHave
  else .unset

/-- `idl::Link`. -/
structure Link where
  field : String
  reltype : RelType
  key : String
  map : Option String
  cls : String
deriving Repr, DecidableEq

/-- `idl::Class`.  The `fields` and `links` hash maps are modelled as
lists in iteration order; `insert` replaces an entry with the same
name, keeping its place (`fieldsInsert` below).  The `tablename`
accessor is used by `idldb.rs` but the copy of `idl.rs` under src/
predates it; modelled from the spec §3: optional table name, absent
means not queryable. -/
structure Class where
  cls : String
  label : String
  tablename : Option String
  fields : List Field
  links : List Link
deriving Repr

/-- `HashMap::insert` for the `fields` map: replace in place or append. -/
def fieldsInsert (f : Field) : List Field → List Field
  | [] => [f]
  | g :: rest => if g.name = f.name then f :: rest else g :: fieldsInsert f rest

/-- `HashMap::insert` for the `links` map. -/
def linksInsert (l : Link) : List Link → List Link
  | [] => [l]
  | g :: rest => if g.field = l.field then l :: rest else g :: linksInsert l rest

/-- Lookup in the `fields` map. -/
def findField (cls : Class) (name : String) : Option Field :=
  cls.fields.find? (fun f => f.name = name)

/-- `idl::Parser`: the registry of classes, keyed by class name. -/
structure Parser where
  classes : List (String × Class)
deriving Repr

/-- Lookup in the registry (`self.classes.get(class)`). -/
def Parser.getClass (p : Parser) (name : String) : Option Class :=
  (p.classes.find? (fun e => e.1 = name)).map Prod.snd

/-! ### Query compiler and row mapper (`src/idldb.rs`) -/

/-- `idldb::OrderByDir`. -/
inductive OrderByDir where
  | asc
  | desc
deriving Repr, DecidableEq

/-- `Display for OrderByDir`. -/
def OrderByDir.toStr : OrderByDir → String
  | .asc => "ASC"
  | .desc => "DESC"

/-- `idldb::OrderBy`. -/
structure OrderBy where
  field : String
  dir : OrderByDir
deriving Repr, DecidableEq

/-- Modelled from the spec: `Pager` exists in this repository only
through its callers (`examples/idldb.rs`, `examples/misc.rs`,
`src/bin/egsh/main.rs` call `IdlClassSearch::set_pager(Pager::new(l,
o))`); the copy of `idldb.rs` under src/ predates it.  Spec §3: an
optional (limit, offset) pair. -/
structure Pager where
  limit : Nat
  offset : Nat
deriving Repr, DecidableEq

/-- `idldb::IdlClassSearch`.  The `pager` member is modelled from the
spec (see `Pager`). -/
structure IdlClassSearch where
  classname : String
  filter : Option JsonValue
  order_by : Option (List OrderBy)
  pager : Option Pager
deriving Repr

/-- `Translator::json_literal_to_sql_value`: numbers print as-is,
strings are single-quoted with embedded quotes doubled, `null` becomes
`NULL`, booleans become `TRUE`/`FALSE`; arrays and objects have no SQL
literal form. -/
def json_literal_to_sql_value (j : JsonValue) : Option String :=
  match j with
  | .num n => some (toString n)
  | .str s => some (sqs ++ sqlEscape s ++ sqs)
  | .null => some "NULL"
  | .boolean true => some "TRUE"
  | .boolean false => some "FALSE"
  | _ => none

/-- `Translator::compile_class_select` loop body: append " name," for
every non-virtual field, in field-map iteration order. -/
def selectBody (sql : String) : List Field → String
  | [] => sql
  | f :: rest =>
    if !f.is_virtual then selectBody (sql ++ " " ++ f.name ++ ",") rest
    else selectBody sql rest

/-- Removal of the final character, modelling the source's final-byte
slice `&sql[0..sql.len() - 1]` (the trailing comma is one byte). -/
def trimLastChar (s : String) : String := String.mk s.data.dropLast

/-- `Translator::compile_class_select`: "SELECT" plus the non-virtual
field names, with the final comma trimmed. -/
def compile_class_select (cls : Class) : String :=
  trimLastChar (selectBody "SELECT" cls.fields)

/-- `Translator::compile_class_order_by` comma logic: a comma after
every entry except the last. -/
def orderByEntries : List OrderBy → String
  | [] => ""
  | [o] => " " ++ o.field ++ " " ++ o.dir.toStr
  | o :: rest => " " ++ o.field ++ " " ++ o.dir.toStr ++ "," ++ orderByEntries rest

/-- `Translator::compile_class_order_by`. -/
def compile_class_order_by (order : List OrderBy) : String :=
  if order.length > 0 then " ORDER BY" ++ orderByEntries order else ""

/-- ASCII upper-casing of one character, modelling `str::to_uppercase`
on the ASCII operand keys this module compares. -/
def charUpper (c : Char) : Char :=
  if c.isLower then Char.ofNat (c.toNat - 32) else c

/-- `key.to_uppercase()` (ASCII). -/
def strToUpper (s : String) : String := String.mk (s.data.map charUpper)

/-- The operand match arms of `compile_class_filter_object` (the newer
tree exposes this as `Translator::is_supported_operand`, called from
`src/bin/egsh/main.rs`). -/
def isSupportedOperand (op : String) : Bool :=
  op = "IS" || op = "IS NOT" || op = "<" || op = "<=" || op = ">" ||
    op = ">=" || op = "<>" || op = "!="

mutual

/-- A debug/dump rendering of a JSON value, used only inside error
message text (stands in for the crate's `dump()`/`{:?}` renderings;
string escaping is not reproduced). -/
def jsonDump : JsonValue → String
  | .null => "null"
  | .boolean true => "true"
  | .boolean false => "false"
  | .num n => toString n
  | .str s => "\"" ++ s ++ "\""
  | .arr xs => "[" ++ jsonDumpList xs ++ "]"
  | .obj kvs => "\x7b" ++ jsonDumpEntries kvs ++ "\x7d"

/-- Comma-joined dump of array members. -/
def jsonDumpList : List JsonValue → String
  | [] => ""
  | [x] => jsonDump x
  | x :: rest => jsonDump x ++ "," ++ jsonDumpList rest

/-- Comma-joined dump of object entries. -/
def jsonDumpEntries : List (String × JsonValue) → String
  | [] => ""
  | [(k, v)] => "\"" ++ k ++ "\":" ++ jsonDump v
  | (k, v) :: rest => "\"" ++ k ++ "\":" ++ jsonDump v ++ "," ++ jsonDumpEntries rest

end

/-- Entry loop of `Translator::compile_class_filter_object`: each entry
is `operand: literal`; the key is upper-cased, matched against the
supported comparison operands, and rendered as " OPERAND literal".
Non-literal values and unsupported operands abort with an error. -/
def compileObjectEntries (sql : String) :
    List (String × JsonValue) → Except String String
  | [] => .ok sql
  | (key, val) :: rest =>
    match json_literal_to_sql_value val with
    | none => .error ("Arrays/Objects not supported here: " ++ jsonDump val)
    | some value =>
      let operand := strToUpper key
      if isSupportedOperand operand then
        compileObjectEntries (sql ++ " " ++ operand ++ " " ++ value) rest
      else
        .error ("Unsupported operand: " ++ operand)

/-- `Translator::compile_class_filter_object`. -/
def compile_class_filter_object (obj : JsonValue) : Except String String :=
  compileObjectEntries "" obj.entriesList

/-- Member loop of `Translator::compile_class_filter_array`: members
with no SQL literal form are skipped; a comma precedes every rendered
member except the first. -/
def compileArrayMembers (sql : String) (first : Bool) : List JsonValue → String
  | [] => sql ++ ")"
  | m :: rest =>
    match json_literal_to_sql_value m with
    | some v =>
      if first then compileArrayMembers (sql ++ v) false rest
      else compileArrayMembers (sql ++ ", " ++ v) false rest
    | none => compileArrayMembers sql first rest

/-- `Translator::compile_class_filter_array`. -/
def compile_class_filter_array (a : JsonValue) : String :=
  compileArrayMembers " IN (" true a.membersList

/-- Entry loop of `Translator::compile_class_filter`: every field name
is validated against the class's field map before any SQL for it is
rendered; " AND" joins the entries after the first.  The `.getD ""`
models the source's `literal.unwrap()`, which cannot fail on the
string/number/boolean/null branches that reach it. -/
def compileFilterEntries (cls : Class) (sql : String) (first : Bool) :
    List (String × JsonValue) → Except String String
  | [] => .ok sql
  | (field, subq) :: rest =>
    if (findField cls field).isNone then
      .error ("Cannot query field " ++ sqs ++ field ++ sqs ++ " on class " ++
        sqs ++ cls.cls ++ sqs)
    else
      let sql := if first then sql else sql ++ " AND"
      let sql := sql ++ " " ++ field
      if subq.isString || subq.isNumber then
        let literal := (json_literal_to_sql_value subq).getD ""
        compileFilterEntries cls (sql ++ " = " ++ literal) false rest
      else if subq.isBoolean || subq.isNull then
        let literal := (json_literal_to_sql_value subq).getD ""
        compileFilterEntries cls (sql ++ " IS " ++ literal) false rest
      else if subq.isArray then
        compileFilterEntries cls (sql ++ compile_class_filter_array subq) false rest
      else
        match compile_class_filter_object subq with
        | .ok objSql => compileFilterEntries cls (sql ++ objSql) false rest
        | .error e => .error e

/-- `Translator::compile_class_filter`. -/
def compile_class_filter (cls : Class) (filter : JsonValue) :
    Except String String :=
  if !filter.isObject then
    .error ("Translator class filter must be an object: " ++ jsonDump filter)
  else
    compileFilterEntries cls " WHERE" true filter.entriesList

/-- Modelled from the spec: pager rendering (spec §4.3, `compile_pager`):
renders `LIMIT limit OFFSET offset`.  See `Pager` for why this is
modelled rather than read from src/. -/
def compile_pager (p : Pager) : String :=
  " LIMIT " ++ toString p.limit ++ " OFFSET " ++ toString p.offset

/-- The query-building phase of `Translator::idl_class_search`: resolve
the class, require a table name, then assemble
`SELECT ... FROM table [WHERE ...] [ORDER BY ...] [LIMIT ... OFFSET ...]`.
Returns the resolved class together with the statement text (the source
keeps both in scope in the one function; the split makes the statement
inspectable). -/
def compile_query (idl : Parser) (search : IdlClassSearch) :
    Except String (Class × String) :=
  match idl.getClass search.classname with
  | none => .error ("No such IDL class: " ++ search.classname)
  | some cls =>
    match cls.tablename with
    | none =>
      .error ("Cannot query an IDL class that has no tablename: " ++
        search.classname)
    | some tablename =>
      let query := compile_class_select cls ++ " FROM " ++ tablename
      (match search.filter with
       | some f => (compile_class_filter cls f).map (fun w => query ++ w)
       | none => .ok query).map (fun q =>
        let q := match search.order_by with
          | some order => q ++ compile_class_order_by order
          | none => q
        let q := match search.pager with
          | some p => q ++ compile_pager p
          | none => q
        (cls, q))

/-- A database row, as handed back by the executor: for each column
index, the declared SQL type name and the column's value (modelled
post-decoding: the `json::from(Option<T>)` result, with SQL NULL as
`null`). -/
abbrev PgRow := List (String × JsonValue)

/-- The SQL type names `col_value_to_json_value` accepts. -/
def supportedColType (t : String) : Bool :=
  t = "bool" || t = "varchar" || t = "char(n)" || t = "text" || t = "name" ||
    t = "timestamp" || t = "timestamptz" || t = "int2" || t = "smallserial" ||
    t = "smallint" || t = "int" || t = "int4" || t = "serial" || t = "int8" ||
    t = "bigserial" || t = "bigint" || t = "float4" || t = "real" ||
    t = "float8" || t = "double precision"

/-- `Translator::col_value_to_json_value`: dispatch on the declared SQL
type name; unsupported names are an error.  (The per-type extraction is
modelled by the pre-decoded column value; the source's `.unwrap()` on a
missing column cannot fire on rows produced by this module's own
SELECT.) -/
def col_value_to_json_value (row : PgRow) (index : Nat) :
    Except String JsonValue :=
  match row.get? index with
  | none => .error "panic: no column at index"
  | some (ctype, v) =>
    if supportedColType ctype then .ok v
    else .error ("Unsupported column type: " ++ ctype)

/-- Field loop of `Translator::row_to_idl`: successive row columns are
read into the class's non-virtual fields, in field-map iteration order. -/
def rowFields (row : PgRow) :
    List Field → Nat → List (String × JsonValue) →
    Except String (List (String × JsonValue))
  | [], _, kvs => .ok kvs
  | f :: rest, index, kvs =>
    match col_value_to_json_value row index with
    | .error e => .error e
    | .ok v => rowFields row rest (index + 1) (JsonValue.objInsert f.name v kvs)

/-- `Translator::row_to_idl`. -/
def row_to_idl (cls : Class) (row : PgRow) : Except String JsonValue :=
  match rowFields row (cls.fields.filter (fun f => !f.is_virtual)) 0
      (JsonValue.objInsert CLASSNAME_KEY (.str cls.cls) []) with
  | .error e => .error e
  | .ok kvs => .ok (.obj kvs)

/-- Modelled from the spec: the database executor collaborator
(`src/db.rs` is not among the provided sources).  It receives the
statement text and yields rows or a database error. -/
abbrev DbExecutor := String → Except String (List PgRow)

/-- `Translator::idl_class_search`, parametrised by the executor: build
the statement, run it, then map every returned row. -/
def idl_class_search (idl : Parser) (dbExec : DbExecutor)
    (search : IdlClassSearch) : Except String (List JsonValue) :=
  match compile_query idl search with
  | .error e => .error e
  | .ok (cls, query) =>
    match dbExec query with
    | .error e => .error ("DB query failed: " ++ e)
    | .ok rows => rows.mapM (fun row => row_to_idl cls row)

/-! ### Derived renderings used to state the compiler properties -/

/-- Comma-and-space separated rendering of a list of fragments. -/
def commaList : List String → String
  | [] => ""
  | [s] => s
  | s :: rest => s ++ ", " ++ commaList rest

/-- The class's non-virtual field names, in field-map iteration order. -/
def nonVirtNames (cls : Class) : List String :=
  (cls.fields.filter (fun f => !f.is_virtual)).map Field.name

/-- The text `selectBody` appends for a list of names. -/
def selTail : List String → String
  | [] => ""
  | n :: rest => " " ++ n ++ "," ++ selTail rest

/-- Lexicographic comparison of character lists by code point. -/
def charListLe : List Char → List Char → Bool
  | [], _ => true
  | _ :: _, [] => false
  | a :: as, b :: bs =>
    if a.toNat < b.toNat then true
    else if b.toNat < a.toNat then false
    else charListLe as bs

/-- Insertion into a name-sorted list. -/
def insName (n : String) : List String → List String
  | [] => [n]
  | m :: rest =>
    if charListLe n.data m.data then n :: m :: rest else m :: insName n rest

/-- Insertion sort of names (by code point, i.e. alphabetically for the
ASCII names involved). -/
def sortNames : List String → List String
  | [] => []
  | n :: rest => insName n (sortNames rest)

/-- The select list as the spec's words describe it (§4.3: non-virtual
field names "in a single deterministic order (by name)"), for
comparison with `compile_class_select`. -/
def spec_compile_class_select (cls : Class) : String :=
  "SELECT " ++ commaList (sortNames (nonVirtNames cls))

/-! ### Concrete schema values used for witnesses and counterexamples -/

/-- A shorthand field constructor for concrete examples. -/
def mkF (n : String) (p : Nat) (v : Bool) : Field :=
  { name := n, label := n, datatype := .int, i18n := false,
    array_pos := p, is_virtual := v }

/-- A concrete `actor.org_unit`-style class. -/
def aou : Class :=
  { cls := "aou", label := "aou", tablename := some "actor.org_unit",
    fields := [mkF "id" 0 false, mkF "name" 1 false, mkF "parent_ou" 2 false,
               mkF "isnew" 3 true, mkF "ischanged" 4 true,
               mkF "isdeleted" 5 true],
    links := [] }

/-- A registry holding only `aou`. -/
def regAou : Parser := { classes := [("aou", aou)] }

/-- A two-field class whose field-map iteration order is not
alphabetical. -/
def clsBA : Class :=
  { cls := "ba", label := "ba", tablename := some "t.ba",
    fields := [mkF "b" 0 false, mkF "a" 1 false], links := [] }

/-- Plain concatenation of a list of fragments. -/
def joinAll : List String → String
  | [] => ""
  | s :: rest => s ++ joinAll rest

/-! ### Schema parsing (`Parser::parse_string` / `add_class`) -/

/-- A `<field>` element: its `name` attribute and the optional
reporter/persist attributes `add_field` reads. -/
structure FieldNode where
  name : String
  label : Option String
  datatype : Option String
  i18n : Option String
  virt : Option String
deriving Repr, DecidableEq

/-- A `<link>` element and the attributes `add_link` reads. -/
structure LinkNode where
  field : String
  reltype : Option String
  key : String
  map : Option String
  cls : String
deriving Repr, DecidableEq

/-- An element child of a `<class>` node: a `<fields>` block, a
`<links>` block, or any other element (skipped by the loop). -/
inductive ClassChild where
  | fieldsElem (fs : List FieldNode)
  | linksElem (ls : List LinkNode)
  | otherElem
deriving Repr, DecidableEq

/-- A `<class>` element: its `id`, optional reporter label, optional
persist tablename, and element children in document order. -/
structure ClassNode where
  id : String
  label : Option String
  tablename : Option String
  children : List ClassChild
deriving Repr, DecidableEq

/-- `Parser::add_field`: build the `Field` for a node at a given array
position (defaults: empty label, `Text` datatype, flags false). -/
def add_field (pos : Nat) (node : FieldNode) : Field :=
  { name := node.name,
    label := node.label.getD "",
    datatype := (node.datatype.map DataType.fromStr).getD .text,
    i18n := (node.i18n.map (fun s => s == "true")).getD false,
    array_pos := pos,
    is_virtual := (node.virt.map (fun s => s == "true")).getD false }

/-- `Parser::add_link`. -/
def add_link (node : LinkNode) : Link :=
  { field := node.field,
    reltype := (node.reltype.map RelType.fromStr).getD .unset,
    key := node.key,
    map := node.map,
    cls := node.cls }

/-- The field loop of a `<fields>` block: insert each field at the
running position, incrementing it per field node. -/
def addFieldNodes (fields : List Field) (pos : Nat) :
    List FieldNode → (List Field × Nat)
  | [] => (fields, pos)
  | n :: rest => addFieldNodes (fieldsInsert (add_field pos n) fields) (pos + 1) rest

/-- The child loop of `add_class`: `<fields>` blocks advance the running
position across blocks; `<links>` blocks only touch the link map. -/
def addChildren (fields : List Field) (links : List Link) (pos : Nat) :
    List ClassChild → (List Field × List Link × Nat)
  | [] => (fields, links, pos)
  | .fieldsElem fs :: rest =>
    let r := addFieldNodes fields pos fs
    addChildren r.1 links r.2 rest
  | .linksElem ls :: rest =>
    addChildren fields (ls.foldl (fun acc n => linksInsert (add_link n) acc) links)
      pos rest
  | .otherElem :: rest => addChildren fields links pos rest

/-- One bookkeeping field (`add_auto_fields` loop body). -/
def autoField (nm : String) (pos : Nat) : Field :=
  { name := nm, label := nm, datatype := .boolean, i18n := false,
    array_pos := pos, is_virtual := true }

/-- `Parser::add_auto_fields`: append the three bookkeeping fields,
continuing the position sequence. -/
def add_auto_fields (fields : List Field) (pos : Nat) : List Field :=
  fieldsInsert (autoField "isdeleted" (pos + 2))
    (fieldsInsert (autoField "ischanged" (pos + 1))
      (fieldsInsert (autoField "isnew" pos) fields))

/-- `Parser::add_class` on one `<class>` node. -/
def add_class (node : ClassNode) : Class :=
  let r := addChildren [] [] 0 node.children
  { cls := node.id,
    label := node.label.getD node.id,
    tablename := node.tablename,
    fields := add_auto_fields r.1 r.2.2,
    links := r.2.1 }

/-- `HashMap::insert` for the registry's class map. -/
def classesInsert (e : String × Class) :
    List (String × Class) → List (String × Class)
  | [] => [e]
  | g :: rest => if g.1 = e.1 then e :: rest else g :: classesInsert e rest

/-- `Parser::parse_string`: add every `<class>` node of the document. -/
def parse_string (doc : List ClassNode) : Parser :=
  { classes := doc.foldl (fun acc n => classesInsert (n.id, add_class n) acc) [] }

/-- The field nodes of all `<fields>` blocks, in document order. -/
def declaredFieldNodes : List ClassChild → List FieldNode
  | [] => []
  | .fieldsElem fs :: rest => fs ++ declaredFieldNodes rest
  | _ :: rest => declaredFieldNodes rest

/-- A field node with only a `name` attribute. -/
def fnPlain (name : String) : FieldNode :=
  { name := name, label := none, datatype := none, i18n := none, virt := none }

/-- A concrete class node: two `<fields>` blocks with a `<links>` block
between them. -/
def cnW : ClassNode :=
  { id := "aout", label := none, tablename := none,
    children := [.fieldsElem [fnPlain "id", fnPlain "name"],
                 .linksElem [],
                 .fieldsElem [fnPlain "depth"]] }

/-- A concrete class node declaring two fields of which the second is
virtual. -/
def cnV : ClassNode :=
  { id := "v", label := none, tablename := none,
    children := [.fieldsElem
      [fnPlain "f1",
       { name := "f2", label := none, datatype := none, i18n := none,
         virt := some "true" }]] }

/-! ### Wire codec (`impl DataSerializer for Parser` in `src/idl.rs`) -/

/-- The reserved class-identity key of the classed wire container
(spec §6; `opensrf::classified`). -/
def JSON_CLASS_KEY : String := "__c"

/-- The reserved payload key of the classed wire container. -/
def JSON_PAYLOAD_KEY : String := "__p"

/-- Modelled from the spec: `opensrf::classified::ClassifiedJson::declassify`
(the `opensrf` crate is an external collaborator; spec §6 describes the
wire format as a container carrying a reserved class-identity key and a
reserved payload key).  A value declassifies when it is an object of
exactly those two entries with a string class tag. -/
def declassify (v : JsonValue) : Option (String × JsonValue) :=
  match v with
  | .obj kvs =>
    if kvs.length = 2 then
      match JsonValue.getKey JSON_CLASS_KEY kvs,
            JsonValue.getKey JSON_PAYLOAD_KEY kvs with
      | some (.str c), some payload => some (c, payload)
      | _, _ => none
    else none
  | _ => none

/-- Modelled from the spec: `ClassifiedJson::classify` wraps a payload
with its class tag. -/
def classify (payload : JsonValue) (cls : String) : JsonValue :=
  .obj [(JSON_CLASS_KEY, .str cls), (JSON_PAYLOAD_KEY, payload)]

/-- Insertion into a list sorted by `array_pos` (kept stable). -/
def insertByPos (f : Field) : List Field → List Field
  | [] => [f]
  | g :: rest =>
    if f.array_pos ≤ g.array_pos then f :: g :: rest else g :: insertByPos f rest

/-- `sorted.sort_by_key(|f| f.array_pos)` in `hash_to_array`: a stable
sort of the fields by array position. -/
def sortByPos : List Field → List Field
  | [] => []
  | f :: rest => insertByPos f (sortByPos rest)

/-- `Parser::array_to_hash`: expand an IDL-classed array into a hash
keyed by field name, with the `_classname` key first; `none` models the
`unwrap` panic on an unknown class. -/
def array_to_hash (P : Parser) (c : String) (value : JsonValue) :
    Option JsonValue :=
  (P.getClass c).map (fun cls =>
    .obj (JsonValue.objInsertAll []
      ((CLASSNAME_KEY, .str c) ::
        cls.fields.map (fun f => (f.name, value.indexNat f.array_pos)))))

/-- `Parser::hash_to_array`: read the hash at every field name in array
position order; `none` models the `unwrap` panic on an unknown class. -/
def hash_to_array (P : Parser) (c : String) (hash : JsonValue) :
    Option JsonValue :=
  (P.getClass c).map (fun cls =>
    .arr ((sortByPos cls.fields).map (fun f => hash.indexKey f.name)))

mutual

/-- `DataSerializer::unpack` for `Parser`: clone the value, replacing
every IDL-classed array by a classed hash (`array_to_hash`) and
recursing into all children.  The classed branch fuses `array_to_hash`
with the recursion over the resulting hash's entries (the `_classname`
value is a string, which unpacks to itself); `none` models a panic
(unknown class, or a classed payload that is not an array). -/
def unpack (P : Parser) (v : JsonValue) : Option JsonValue :=
  match v with
  | .null => some .null
  | .boolean b => some (.boolean b)
  | .num n => some (.num n)
  | .str s => some (.str s)
  | .arr xs => (unpackList P xs).map .arr
  | .obj kvs =>
    match hd : declassify (.obj kvs) with
    | some (c, payload) =>
      match payload with
      | .arr es =>
        match P.getClass c with
        | none => none
        | some cls =>
          (unpackFields P es cls.fields).map (fun fvals =>
            .obj (JsonValue.objInsertAll []
              ((CLASSNAME_KEY, .str c) :: fvals)))
      | _ => none
    | none =>
      (unpackEntries P kvs).map (fun ws => .obj (JsonValue.objInsertAll [] ws))
termination_by (sizeOf v, 0)
decreasing_by
  · exact Prod.Lex.left _ _ (by simp <;> omega)
  · have hgk : ∀ (k : String) (kvs₀ : List (String × JsonValue)) (w : JsonValue),
        JsonValue.getKey k kvs₀ = some w → sizeOf w < sizeOf kvs₀ := by
      intro k kvs₀
      induction kvs₀ with
      | nil => intro w h; exact absurd h (by simp [JsonValue.getKey])
      | cons kv rest₀ ih =>
        intro w h
        obtain ⟨k₀, v₀⟩ := kv
        by_cases hk : k₀ = k
        · simp only [JsonValue.getKey, hk, if_pos] at h
          injection h with h
          subst h
          simp <;> omega
        · simp only [JsonValue.getKey, hk, if_neg, if_false] at h
          have := ih w h
          simp <;> omega
    have key : ∀ (kvs₁ : List (String × JsonValue)) (c₁ : String)
        (p₁ : JsonValue),
        declassify (.obj kvs₁) = some (c₁, p₁) → sizeOf p₁ < sizeOf kvs₁ := by
      intro kvs₁ c₁ p₁ hdec
      simp only [declassify] at hdec
      split at hdec
      · cases h1 : JsonValue.getKey JSON_CLASS_KEY kvs₁ with
        | none => rw [h1] at hdec; simp at hdec
        | some tag =>
          cases h2 : JsonValue.getKey JSON_PAYLOAD_KEY kvs₁ with
          | none => rw [h1, h2] at hdec; cases tag <;> simp at hdec
          | some p2 =>
            rw [h1, h2] at hdec
            cases tag <;> simp at hdec
            rw [hdec.2] at h2
            exact hgk _ _ _ h2
      · simp at hdec
    have h1 := key _ _ _ hd
    exact Prod.Lex.left _ _ (by simp at h1 ⊢ <;> omega)
  · exact Prod.Lex.left _ _ (by simp <;> omega)

/-- Child loop of `unpack` over array members. -/
def unpackList (P : Parser) (xs : List JsonValue) : Option (List JsonValue) :=
  match xs with
  | [] => some []
  | x :: rest =>
    match unpack P x, unpackList P rest with
    | some y, some ys => some (y :: ys)
    | _, _ => none
termination_by (sizeOf xs, 0)
decreasing_by
  · exact Prod.Lex.left _ _ (by simp <;> omega)
  · exact Prod.Lex.left _ _ (by simp <;> omega)

/-- Entry loop of `unpack` over object entries. -/
def unpackEntries (P : Parser) (kvs : List (String × JsonValue)) :
    Option (List (String × JsonValue)) :=
  match kvs with
  | [] => some []
  | (k, v) :: rest =>
    match unpack P v, unpackEntries P rest with
    | some w, some ws => some ((k, w) :: ws)
    | _, _ => none
termination_by (sizeOf kvs, 0)
decreasing_by
  · exact Prod.Lex.left _ _ (by simp <;> omega)
  · exact Prod.Lex.left _ _ (by simp <;> omega)

/-- Field loop of the classed branch of `unpack`: each field reads the
payload element at its array position (`value[field.array_pos]`, `Null`
when out of range) and unpacks it. -/
def unpackFields (P : Parser) (es : List JsonValue) (fs : List Field) :
    Option (List (String × JsonValue)) :=
  match fs with
  | [] => some []
  | f :: rest =>
    match unpack P (es.getD f.array_pos .null), unpackFields P es rest with
    | some w, some ws => some ((f.name, w) :: ws)
    | _, _ => none
termination_by (sizeOf es, sizeOf fs)
decreasing_by
  · have key : ∀ (es₀ : List JsonValue) (i : Nat),
        sizeOf (es₀.getD i JsonValue.null) ≤ sizeOf es₀ := by
      intro es₀ i
      rcases Nat.lt_or_ge i es₀.length with h | h
      · rw [List.getD_eq_getElem es₀ _ h]
        exact Nat.le_of_lt (List.sizeOf_lt_of_mem (es₀.getElem_mem h))
      · rw [List.getD_eq_default es₀ _ h]
        have hp : 0 < sizeOf es₀ := by cases es₀ <;> simp <;> omega
        simp <;> omega
    have lex : ∀ (a b d : Nat), a ≤ b → 0 < d →
        Prod.Lex (· < ·) (· < ·) (a, 0) (b, d) := by
      intro a b d hab hd
      rcases Nat.lt_or_eq_of_le hab with h | h
      · exact Prod.Lex.left _ _ h
      · subst h
        exact Prod.Lex.right _ hd
    exact lex _ _ _ (key _ _) (by simp <;> omega)
  · exact Prod.Lex.right _ (by simp <;> omega)

end

mutual

/-- `DataSerializer::pack` for `Parser`: clone the value, replacing
every classed hash (an object carrying the `_classname` key) by an
IDL-classed array (`hash_to_array` with every element packed, wrapped
by `classify`), recursing into all children.  `none` models a panic
(`as_str().unwrap()` on a non-string class tag, or an unknown class in
`hash_to_array`). -/
def pack (P : Parser) (v : JsonValue) : Option JsonValue :=
  match v with
  | .null => some .null
  | .boolean b => some (.boolean b)
  | .num n => some (.num n)
  | .str s => some (.str s)
  | .obj kvs =>
    match JsonValue.getKey CLASSNAME_KEY kvs with
    | some tag =>
      match tag.asStr with
      | none => none
      | some c =>
        match P.getClass c with
        | none => none
        | some cls =>
          (packFields P kvs (sortByPos cls.fields)).map (fun ps =>
            classify (.arr ps) c)
    | none =>
      (packEntries P kvs).map (fun ws => .obj (JsonValue.objInsertAll [] ws))
  | .arr xs => (packList P xs).map .arr
termination_by (sizeOf v, 0)
decreasing_by
  · exact Prod.Lex.left _ _ (by simp <;> omega)
  · exact Prod.Lex.left _ _ (by simp <;> omega)
  · exact Prod.Lex.left _ _ (by simp <;> omega)

/-- Child loop of `pack` over array members. -/
def packList (P : Parser) (xs : List JsonValue) : Option (List JsonValue) :=
  match xs with
  | [] => some []
  | x :: rest =>
    match pack P x, packList P rest with
    | some y, some ys => some (y :: ys)
    | _, _ => none
termination_by (sizeOf xs, 0)
decreasing_by
  · exact Prod.Lex.left _ _ (by simp <;> omega)
  · exact Prod.Lex.left _ _ (by simp <;> omega)

/-- Entry loop of `pack` over object entries. -/
def packEntries (P : Parser) (kvs : List (String × JsonValue)) :
    Option (List (String × JsonValue)) :=
  match kvs with
  | [] => some []
  | (k, v) :: rest =>
    match pack P v, packEntries P rest with
    | some w, some ws => some ((k, w) :: ws)
    | _, _ => none
termination_by (sizeOf kvs, 0)
decreasing_by
  · exact Prod.Lex.left _ _ (by simp <;> omega)
  · exact Prod.Lex.left _ _ (by simp <;> omega)

/-- Field loop of the classed branch of `pack`: the fields sorted by
array position each read the hash at their name (`hash[name]`, `Null`
when missing), and the read value is packed. -/
def packFields (P : Parser) (kvs : List (String × JsonValue))
    (fs : List Field) : Option (List JsonValue) :=
  match fs with
  | [] => some []
  | f :: rest =>
    match pack P ((JsonValue.getKey f.name kvs).getD .null),
          packFields P kvs rest with
    | some w, some ws => some (w :: ws)
    | _, _ => none
termination_by (sizeOf kvs, sizeOf fs)
decreasing_by
  · have hgk : ∀ (k : String) (kvs₀ : List (String × JsonValue)) (w : JsonValue),
        JsonValue.getKey k kvs₀ = some w → sizeOf w < sizeOf kvs₀ := by
      intro k kvs₀
      induction kvs₀ with
      | nil => intro w h; exact absurd h (by simp [JsonValue.getKey])
      | cons kv rest₀ ih =>
        intro w h
        obtain ⟨k₀, v₀⟩ := kv
        by_cases hk : k₀ = k
        · simp only [JsonValue.getKey, hk, if_pos] at h
          injection h with h
          subst h
          simp <;> omega
        · simp only [JsonValue.getKey, hk, if_neg, if_false] at h
          have := ih w h
          simp <;> omega
    have key : ∀ (nm : String) (kvs₀ : List (String × JsonValue)),
        sizeOf ((JsonValue.getKey nm kvs₀).getD JsonValue.null) ≤
          sizeOf kvs₀ := by
      intro nm kvs₀
      cases hg : JsonValue.getKey nm kvs₀ with
      | none =>
        have hp : 0 < sizeOf kvs₀ := by cases kvs₀ <;> simp <;> omega
        simp <;> omega
      | some w =>
        simpa using Nat.le_of_lt (hgk nm kvs₀ w hg)
    have lex : ∀ (a b d : Nat), a ≤ b → 0 < d →
        Prod.Lex (· < ·) (· < ·) (a, 0) (b, d) := by
      intro a b d hab hd
      rcases Nat.lt_or_eq_of_le hab with h | h
      · exact Prod.Lex.left _ _ h
      · subst h
        exact Prod.Lex.right _ hd
    exact lex _ _ _ (key _ _) (by simp <;> omega)
  · exact Prod.Lex.right _ (by simp <;> omega)

end

/-! ### The crate's `PartialEq` and well-formedness predicates -/

mutual

/-- The `json` crate's `PartialEq` on values (`==` in the spec's
round-trip property): structural on scalars and arrays; objects compare
by length and key-based lookup, so entry order does not matter. -/
def jeq (a b : JsonValue) : Bool :=
  match a, b with
  | .null, .null => true
  | .boolean x, .boolean y => x == y
  | .num x, .num y => x == y
  | .str x, .str y => x == y
  | .arr xs, .arr ys => jeqList xs ys
  | .obj akvs, .obj bkvs => (akvs.length == bkvs.length) && jeqEntries bkvs akvs
  | _, _ => false
termination_by sizeOf a
decreasing_by
  · simp <;> omega
  · simp <;> omega

/-- Elementwise `PartialEq` on arrays (false on length mismatch). -/
def jeqList (xs ys : List JsonValue) : Bool :=
  match xs, ys with
  | [], [] => true
  | x :: xs', y :: ys' => jeq x y && jeqList xs' ys'
  | _, _ => false
termination_by sizeOf xs
decreasing_by
  · simp <;> omega
  · simp <;> omega

/-- Entry check of object `PartialEq`: every entry of the iterated
object must be found by key in `bkvs` with an equal value. -/
def jeqEntries (bkvs akvs : List (String × JsonValue)) : Bool :=
  match akvs with
  | [] => true
  | (k, v) :: rest =>
    (match JsonValue.getKey k bkvs with
     | some w => jeq v w
     | none => false) && jeqEntries bkvs rest
termination_by sizeOf akvs
decreasing_by
  · simp <;> omega
  · simp <;> omega

end

/-- No duplicate keys among an object's entries (all crate-built
objects satisfy this, since `insert` replaces). -/
def keysNodup : List (String × JsonValue) → Bool
  | [] => true
  | (k, _) :: rest => !(JsonValue.getKey k rest).isSome && keysNodup rest

mutual

/-- Wire-side well-formedness: every classed container is an object of
exactly the two reserved entries whose payload is an array naming a
known class with one element per class field, recursively; plain
objects carry no `_classname` key and no duplicate keys. -/
def wireWF (P : Parser) (v : JsonValue) : Bool :=
  match v with
  | .null | .boolean _ | .num _ | .str _ => true
  | .arr xs => wireWFList P xs
  | .obj kvs =>
    match hd : declassify (.obj kvs) with
    | some (c, payload) =>
      match payload with
      | .arr es =>
        match P.getClass c with
        | some cls => (es.length == cls.fields.length) && wireWFList P es
        | none => false
      | _ => false
    | none =>
      !(JsonValue.getKey CLASSNAME_KEY kvs).isSome && keysNodup kvs &&
        wireWFEntries P kvs
termination_by (sizeOf v, 0)
decreasing_by
  · exact Prod.Lex.left _ _ (by simp <;> omega)
  · have hgk : ∀ (k : String) (kvs₀ : List (String × JsonValue)) (w : JsonValue),
        JsonValue.getKey k kvs₀ = some w → sizeOf w < sizeOf kvs₀ := by
      intro k kvs₀
      induction kvs₀ with
      | nil => intro w h; exact absurd h (by simp [JsonValue.getKey])
      | cons kv rest₀ ih =>
        intro w h
        obtain ⟨k₀, v₀⟩ := kv
        by_cases hk : k₀ = k
        · simp only [JsonValue.getKey, hk, if_pos] at h
          injection h with h
          subst h
          simp <;> omega
        · simp only [JsonValue.getKey, hk, if_neg, if_false] at h
          have := ih w h
          simp <;> omega
    have key : ∀ (kvs₁ : List (String × JsonValue)) (c₁ : String)
        (p₁ : JsonValue),
        declassify (.obj kvs₁) = some (c₁, p₁) → sizeOf p₁ < sizeOf kvs₁ := by
      intro kvs₁ c₁ p₁ hdec
      simp only [declassify] at hdec
      split at hdec
      · cases h1 : JsonValue.getKey JSON_CLASS_KEY kvs₁ with
        | none => rw [h1] at hdec; simp at hdec
        | some tag =>
          cases h2 : JsonValue.getKey JSON_PAYLOAD_KEY kvs₁ with
          | none => rw [h1, h2] at hdec; cases tag <;> simp at hdec
          | some p2 =>
            rw [h1, h2] at hdec
            cases tag <;> simp at hdec
            rw [hdec.2] at h2
            exact hgk _ _ _ h2
      · simp at hdec
    have h1 := key _ _ _ hd
    exact Prod.Lex.left _ _ (by simp at h1 ⊢ <;> omega)
  · exact Prod.Lex.left _ _ (by simp <;> omega)

/-- `wireWF` over array members. -/
def wireWFList (P : Parser) (xs : List JsonValue) : Bool :=
  match xs with
  | [] => true
  | x :: rest => wireWF P x && wireWFList P rest
termination_by (sizeOf xs, 0)
decreasing_by
  · exact Prod.Lex.left _ _ (by simp <;> omega)
  · exact Prod.Lex.left _ _ (by simp <;> omega)

/-- `wireWF` over object entry values. -/
def wireWFEntries (P : Parser) (kvs : List (String × JsonValue)) : Bool :=
  match kvs with
  | [] => true
  | (_, v) :: rest => wireWF P v && wireWFEntries P rest
termination_by (sizeOf kvs, 0)
decreasing_by
  · exact Prod.Lex.left _ _ (by simp <;> omega)
  · exact Prod.Lex.left _ _ (by simp <;> omega)

end

mutual

/-- Hash-side well-formedness: every object carrying `_classname` names
a known class via a string tag and holds exactly one entry per class
field plus the tag, recursively; other objects are not classed
containers and have no duplicate keys. -/
def hashWF (P : Parser) (v : JsonValue) : Bool :=
  match v with
  | .null | .boolean _ | .num _ | .str _ => true
  | .arr xs => hashWFList P xs
  | .obj kvs =>
    keysNodup kvs &&
    match JsonValue.getKey CLASSNAME_KEY kvs with
    | some (.str c) =>
      (match P.getClass c with
       | some cls =>
         (kvs.length == cls.fields.length + 1) &&
         cls.fields.all (fun f => (JsonValue.getKey f.name kvs).isSome) &&
         kvs.all (fun kv => (kv.1 == CLASSNAME_KEY) ||
           cls.fields.any (fun f => f.name == kv.1))
       | none => false) &&
      hashWFEntries P kvs
    | some _ => false
    | none => !(declassify (.obj kvs)).isSome && hashWFEntries P kvs
termination_by (sizeOf v, 0)
decreasing_by
  · exact Prod.Lex.left _ _ (by simp <;> omega)
  · exact Prod.Lex.left _ _ (by simp <;> omega)

/-- `hashWF` over array members. -/
def hashWFList (P : Parser) (xs : List JsonValue) : Bool :=
  match xs with
  | [] => true
  | x :: rest => hashWF P x && hashWFList P rest
termination_by (sizeOf xs, 0)
decreasing_by
  · exact Prod.Lex.left _ _ (by simp <;> omega)
  · exact Prod.Lex.left _ _ (by simp <;> omega)

/-- `hashWF` over object entry values. -/
def hashWFEntries (P : Parser) (kvs : List (String × JsonValue)) : Bool :=
  match kvs with
  | [] => true
  | (_, v) :: rest => hashWF P v && hashWFEntries P rest
termination_by (sizeOf kvs, 0)
decreasing_by
  · exact Prod.Lex.left _ _ (by simp <;> omega)
  · exact Prod.Lex.left _ _ (by simp <;> omega)

end

mutual

/-- The claim's own notion of well-formedness, word for word: "a value
whose classed arrays all name classes known to the registry and carry
one payload entry per field position, nested values also well-formed".
Values that are not classed arrays are only constrained through their
children. -/
def wfClaim (P : Parser) (v : JsonValue) : Bool :=
  match v with
  | .null | .boolean _ | .num _ | .str _ => true
  | .arr xs => wfClaimList P xs
  | .obj kvs =>
    match hd : declassify (.obj kvs) with
    | some (c, payload) =>
      match payload with
      | .arr es =>
        (match P.getClass c with
         | some cls => es.length == cls.fields.length
         | none => false) && wfClaimList P es
      | _ => wfClaimEntries P kvs
    | none => wfClaimEntries P kvs
termination_by (sizeOf v, 0)
decreasing_by
  · exact Prod.Lex.left _ _ (by simp <;> omega)
  · have hgk : ∀ (k : String) (kvs₀ : List (String × JsonValue)) (w : JsonValue),
        JsonValue.getKey k kvs₀ = some w → sizeOf w < sizeOf kvs₀ := by
      intro k kvs₀
      induction kvs₀ with
      | nil => intro w h; exact absurd h (by simp [JsonValue.getKey])
      | cons kv rest₀ ih =>
        intro w h
        obtain ⟨k₀, v₀⟩ := kv
        by_cases hk : k₀ = k
        · simp only [JsonValue.getKey, hk, if_pos] at h
          injection h with h
          subst h
          simp <;> omega
        · simp only [JsonValue.getKey, hk, if_neg, if_false] at h
          have := ih w h
          simp <;> omega
    have key : ∀ (kvs₁ : List (String × JsonValue)) (c₁ : String)
        (p₁ : JsonValue),
        declassify (.obj kvs₁) = some (c₁, p₁) → sizeOf p₁ < sizeOf kvs₁ := by
      intro kvs₁ c₁ p₁ hdec
      simp only [declassify] at hdec
      split at hdec
      · cases h1 : JsonValue.getKey JSON_CLASS_KEY kvs₁ with
        | none => rw [h1] at hdec; simp at hdec
        | some tag =>
          cases h2 : JsonValue.getKey JSON_PAYLOAD_KEY kvs₁ with
          | none => rw [h1, h2] at hdec; cases tag <;> simp at hdec
          | some p2 =>
            rw [h1, h2] at hdec
            cases tag <;> simp at hdec
            rw [hdec.2] at h2
            exact hgk _ _ _ h2
      · simp at hdec
    have h1 := key _ _ _ hd
    exact Prod.Lex.left _ _ (by simp at h1 ⊢ <;> omega)
  · exact Prod.Lex.left _ _ (by simp <;> omega)
  · exact Prod.Lex.left _ _ (by simp <;> omega)

/-- `wfClaim` over array members. -/
def wfClaimList (P : Parser) (xs : List JsonValue) : Bool :=
  match xs with
  | [] => true
  | x :: rest => wfClaim P x && wfClaimList P rest
termination_by (sizeOf xs, 0)
decreasing_by
  · exact Prod.Lex.left _ _ (by simp <;> omega)
  · exact Prod.Lex.left _ _ (by simp <;> omega)

/-- `wfClaim` over object entry values. -/
def wfClaimEntries (P : Parser) (kvs : List (String × JsonValue)) : Bool :=
  match kvs with
  | [] => true
  | (_, v) :: rest => wfClaim P v && wfClaimEntries P rest
termination_by (sizeOf kvs, 0)
decreasing_by
  · exact Prod.Lex.left _ _ (by simp <;> omega)
  · exact Prod.Lex.left _ _ (by simp <;> omega)

end

/-- Registry well-formedness, true of every parsed registry: within
each class the field names are distinct, none of them is the reserved
`_classname` key, and the array positions are exactly 0..n-1. -/
def RegWF (P : Parser) : Prop :=
  ∀ e ∈ P.classes,
    ((e.2.fields.map Field.name).Nodup ∧
     CLASSNAME_KEY ∉ e.2.fields.map Field.name ∧
     (e.2.fields.map Field.array_pos).Perm (List.range e.2.fields.length))

/-- A `<class id="c">` node with no fields or links blocks: its class
ends up with only the three bookkeeping fields at positions 0, 1, 2. -/
def cnMin : ClassNode :=
  { id := "c", label := none, tablename := none, children := [] }

/-- The registry parsed from the single class node `cnMin`. -/
def regC : Parser := parse_string [cnMin]

/-- A malformed classed hash: it carries the `_classname` tag of class
`c` but none of the class's field keys. -/
def x0 : JsonValue := .obj [(CLASSNAME_KEY, .str "c")]

/-- What `pack` makes of `x0`: the classed wire container with a `null`
payload slot per field of class `c`. -/
def px0 : JsonValue :=
  .obj [(JSON_CLASS_KEY, .str "c"),
        (JSON_PAYLOAD_KEY, .arr [.null, .null, .null])]

/-! ## Theorems -/

theorem undouble_cons_ne (c : Char) (t : List Char) (hc : c ≠ sq) :
    undouble (c :: t) = c :: undouble t := by
  cases t with
  | nil => simp [undouble]
  | cons c' cs => simp [undouble, hc]

theorem undouble_sq_sq (t : List Char) :
    undouble (sq :: sq :: t) = sq :: undouble t := by
  simp [undouble]

theorem undouble_sqlEscapeChars (l : List Char) :
    undouble (sqlEscapeChars l) = l := by
  induction l with
  | nil => simp [sqlEscapeChars, undouble]
  | cons c cs ih =>
    by_cases h : c = sq
    · simp [sqlEscapeChars, h, undouble_sq_sq, ih]
    · simp [sqlEscapeChars, h, undouble_cons_ne c _ h, ih]

theorem scanLit_cons_ne (c : Char) (t : List Char) (hc : c ≠ sq)
    (ht : t ≠ []) :
    scanLit (c :: t) = (scanLit t).map (fun p => (c :: p.1, p.2)) := by
  cases t with
  | nil => exact absurd rfl ht
  | cons c' cs => simp [scanLit, hc]

theorem scanLit_sq_sq (t : List Char) :
    scanLit (sq :: sq :: t) = (scanLit t).map (fun p => (sq :: p.1, p.2)) := by
  simp [scanLit]

theorem scanLit_sq_close (t : List Char) (h : t.head? ≠ some sq) :
    scanLit (sq :: t) = some ([], t) := by
  cases t with
  | nil => simp [scanLit]
  | cons c cs =>
    have hc : c ≠ sq := by
      intro hc; exact h (by simp [hc])
    simp [scanLit, hc]

theorem scanLit_sqlEscapeChars (l suffix : List Char)
    (h : suffix.head? ≠ some sq) :
    scanLit (sqlEscapeChars l ++ sq :: suffix) = some (l, suffix) := by
  induction l with
  | nil => simpa [sqlEscapeChars] using scanLit_sq_close suffix h
  | cons c cs ih =>
    by_cases hc : c = sq
    · subst hc
      simp [sqlEscapeChars, scanLit_sq_sq, ih]
    · have hne : sqlEscapeChars cs ++ sq :: suffix ≠ [] := by
        simp
      simp [sqlEscapeChars, hc, scanLit_cons_ne c _ hc hne, ih]

/-! ### Lemmas about the select list -/

theorem selectBody_eq (fs : List Field) (sql : String) :
    selectBody sql fs = sql ++ selTail ((fs.filter (fun f => !f.is_virtual)).map Field.name) := by
  induction fs generalizing sql with
  | nil => simp [selectBody, selTail]
  | cons f rest ih =>
    by_cases hv : f.is_virtual
    · simp [selectBody, hv, ih]
    · simp only [selectBody, hv, Bool.not_false, if_pos, List.filter_cons,
        Bool.not_eq_true']
      rw [ih]
      simp [hv, selTail, String.append_assoc]

theorem trim_selTail (names : List String) (pre : String) (h : names ≠ []) :
    trimLastChar (pre ++ selTail names) = pre ++ " " ++ commaList names := by
  induction names generalizing pre with
  | nil => exact absurd rfl h
  | cons n rest ih =>
    cases rest with
    | nil =>
      apply String.ext
      simp only [trimLastChar, selTail, commaList, String.data_append]
      have : pre.data ++ ([' '] ++ n.data ++ [','] ++ []) =
          (pre.data ++ [' '] ++ n.data) ++ [','] := by simp
      rw [this, List.dropLast_concat]
    | cons m ms =>
      have hne : (m :: ms : List String) ≠ [] := by simp
      have := ih (pre ++ (" " ++ n ++ ",")) hne
      calc trimLastChar (pre ++ selTail (n :: m :: ms))
          = trimLastChar (pre ++ (" " ++ n ++ ",") ++ selTail (m :: ms)) := by
            simp [selTail, String.append_assoc]
        _ = pre ++ (" " ++ n ++ ",") ++ " " ++ commaList (m :: ms) := this
        _ = pre ++ " " ++ commaList (n :: m :: ms) := by
            apply String.ext
            simp [commaList, String.data_append]

theorem compile_class_select_eq (cls : Class) (h : nonVirtNames cls ≠ []) :
    compile_class_select cls = "SELECT " ++ commaList (nonVirtNames cls) := by
  have : compile_class_select cls =
      trimLastChar ("SELECT" ++ selTail (nonVirtNames cls)) := by
    simp [compile_class_select, selectBody_eq, nonVirtNames]
  rw [this, trim_selTail _ _ h]
  apply String.ext
  simp [String.data_append]

theorem commaList_cons_eq_joinAll (v : String) (xs : List String) :
    commaList (v :: xs) = v ++ joinAll (xs.map (fun s => ", " ++ s)) := by
  induction xs generalizing v with
  | nil => simp [commaList, joinAll]
  | cons m ms ih =>
    simp only [commaList, joinAll, List.map_cons, ih m]
    simp [String.append_assoc]

theorem compileArrayMembers_false_eq (l : List JsonValue) (sql : String) :
    compileArrayMembers sql false l =
      sql ++ joinAll ((l.filterMap json_literal_to_sql_value).map
        (fun v => ", " ++ v)) ++ ")" := by
  induction l generalizing sql with
  | nil => simp [compileArrayMembers, joinAll]
  | cons m rest ih =>
    cases hm : json_literal_to_sql_value m with
    | none => simp [compileArrayMembers, hm, ih]
    | some v =>
      simp only [compileArrayMembers, hm, if_neg Bool.false_ne_true, ih,
        List.filterMap_cons, List.map_cons, joinAll]
      simp [String.append_assoc]

theorem compileArrayMembers_true_eq (l : List JsonValue) (sql : String) :
    compileArrayMembers sql true l =
      sql ++ commaList (l.filterMap json_literal_to_sql_value) ++ ")" := by
  induction l generalizing sql with
  | nil => simp [compileArrayMembers, commaList]
  | cons m rest ih =>
    cases hm : json_literal_to_sql_value m with
    | none => simp [compileArrayMembers, hm, ih]
    | some v =>
      simp only [compileArrayMembers, hm, if_pos rfl,
        compileArrayMembers_false_eq, List.filterMap_cons,
        commaList_cons_eq_joinAll]
      simp [String.append_assoc]

theorem sqlEscapeChars_eq_bind (l : List Char) :
    sqlEscapeChars l = l.flatMap (fun c => if c = sq then [sq, sq] else [c]) := by
  induction l with
  | nil => simp [sqlEscapeChars]
  | cons c cs ih =>
    by_cases h : c = sq <;> simp [sqlEscapeChars, h, ih]

/-! ### C3 -/

/-- C3: for every string `s` supplied as a filter literal, the emitted
SQL literal is a single quote, then `s` with every embedded quote
doubled, then a closing quote; collapsing the doubled quotes recovers
exactly `s`, and an SQL lexer scanning the literal (followed by any
continuation that does not begin with a quote) consumes exactly the
escaped body and decodes it back to `s`, so the literal never alters
the SQL structure. -/
theorem c3_string_literal_escape (s : String) (suffix : List Char)
    (h : suffix.head? ≠ some sq) :
    json_literal_to_sql_value (.str s) = some (sqs ++ sqlEscape s ++ sqs) ∧
    sqlEscapeChars s.data =
      s.data.flatMap (fun c => if c = sq then [sq, sq] else [c]) ∧
    undouble (sqlEscapeChars s.data) = s.data ∧
    scanLit (sqlEscapeChars s.data ++ sq :: suffix) = some (s.data, suffix) :=
  ⟨rfl, sqlEscapeChars_eq_bind s.data, undouble_sqlEscapeChars s.data,
    scanLit_sqlEscapeChars s.data suffix h⟩

/-- Witness for C3 at `O'Brien` with an empty continuation. -/
theorem c3_witness :
    json_literal_to_sql_value (.str ("O" ++ sqs ++ "Brien")) =
      some (sqs ++ sqlEscape ("O" ++ sqs ++ "Brien") ++ sqs) ∧
    sqlEscapeChars ("O" ++ sqs ++ "Brien").data =
      ("O" ++ sqs ++ "Brien").data.flatMap
        (fun c => if c = sq then [sq, sq] else [c]) ∧
    undouble (sqlEscapeChars ("O" ++ sqs ++ "Brien").data) =
      ("O" ++ sqs ++ "Brien").data ∧
    scanLit (sqlEscapeChars ("O" ++ sqs ++ "Brien").data ++ sq :: []) =
      some (("O" ++ sqs ++ "Brien").data, []) :=
  c3_string_literal_escape ("O" ++ sqs ++ "Brien") [] (by decide)

/-! ### C6 -/

/-- C6 (amended): `compile_class_select` emits "SELECT " followed by
the comma-separated non-virtual field names in the class's field-map
iteration order (deterministic for a given registry instance), which is
not in general sorted by name. -/
theorem c6_select_iteration_order (cls : Class) (h : nonVirtNames cls ≠ []) :
    compile_class_select cls = "SELECT " ++ commaList (nonVirtNames cls) :=
  compile_class_select_eq cls h

/-- Witness for C6 (amended) at the concrete class `aou`. -/
theorem c6_select_iteration_order_witness :
    compile_class_select aou = "SELECT " ++ commaList (nonVirtNames aou) :=
  c6_select_iteration_order aou (by decide)

/-- Counterexample for C6 as stated: on a class whose field-map
iteration order is `b, a`, the emitted list is not sorted by field
name. -/
theorem c6_counterexample :
    compile_class_select clsBA = "SELECT b, a" ∧
    spec_compile_class_select clsBA = "SELECT a, b" ∧
    compile_class_select clsBA ≠ spec_compile_class_select clsBA := by
  refine ⟨rfl, rfl, ?_⟩
  exact (by decide : ("SELECT b, a" : String) ≠ "SELECT a, b")

/-! ### C9 -/

/-- C9 (amended): a `{operand: literal}` sub-query on a valid field
compiles to ` field OPERAND literal` with the operand upper-cased; the
upper-cased key is matched against the eight comparison operands, so
operand matching is case-insensitive, and any key whose upper-casing is
not among the eight fails with an UnsupportedOperand error. -/
theorem c9_operand_object (cls : Class) (field key : String)
    (val : JsonValue) (lit : String)
    (hfield : (findField cls field).isSome)
    (hlit : json_literal_to_sql_value val = some lit) :
    compile_class_filter cls (.obj [(field, .obj [(key, val)])]) =
      if isSupportedOperand (strToUpper key) then
        .ok (" WHERE " ++ field ++ " " ++ strToUpper key ++ " " ++ lit)
      else
        .error ("Unsupported operand: " ++ strToUpper key) := by
  obtain ⟨f0, hf0⟩ := Option.isSome_iff_exists.mp hfield
  have step : compile_class_filter cls (.obj [(field, .obj [(key, val)])]) =
      compileFilterEntries cls " WHERE" true [(field, .obj [(key, val)])] := rfl
  rw [step]
  simp only [compileFilterEntries, hf0, Option.isNone_some, Bool.false_eq_true,
    if_false, JsonValue.isString, JsonValue.isNumber, JsonValue.isBoolean,
    JsonValue.isNull, JsonValue.isArray, Bool.or_self, if_pos,
    compile_class_filter_object, JsonValue.entriesList, compileObjectEntries,
    hlit]
  by_cases hop : isSupportedOperand (strToUpper key) = true
  · simp only [hop, if_true, compileObjectEntries, compileFilterEntries]
    congr 1
    apply String.ext
    simp [String.data_append]
  · simp only [Bool.not_eq_true] at hop
    simp [hop]

/-- Witness for C9 (amended): `{"id": {"<": 10}}` on `aou` compiles to
` WHERE id < 10`. -/
theorem c9_operand_object_witness :
    compile_class_filter aou (.obj [("id", .obj [("<", .num 10)])]) =
      if isSupportedOperand (strToUpper "<") then
        .ok (" WHERE " ++ "id" ++ " " ++ strToUpper "<" ++ " " ++ "10")
      else
        .error ("Unsupported operand: " ++ strToUpper "<") :=
  c9_operand_object aou "id" "<" (.num 10) "10" (by decide) (by decide)

/-- Counterexample for C9 as stated: the lower-case operand key `is` is
not one of the eight accepted operand strings, yet compilation succeeds
(the key is upper-cased first) instead of failing with
UnsupportedOperand. -/
theorem c9_counterexample :
    compile_class_filter aou (.obj [("id", .obj [("is", .null)])]) =
      .ok " WHERE id IS NULL" ∧
    ¬ ("is" ∈ (["IS", "IS NOT", "<", "<=", ">", ">=", "<>", "!="] :
        List String)) := by
  exact ⟨rfl, by decide⟩

/-! ### C10 -/

/-- C10: compiling an array-valued filter entry never fails: members
with no SQL literal form are silently omitted from the IN list, and the
empty array renders as " IN ()". -/
theorem c10_array_membership :
    (∀ elems : List JsonValue,
      compile_class_filter_array (.arr elems) =
        " IN (" ++ commaList (elems.filterMap json_literal_to_sql_value) ++
          ")") ∧
    compile_class_filter_array (.arr []) = " IN ()" := by
  constructor
  · intro elems
    simp [compile_class_filter_array, JsonValue.membersList,
      compileArrayMembers_true_eq]
  · decide

/-! ### C4 -/

theorem compileFilterEntries_error (cls : Class) :
    ∀ (entries : List (String × JsonValue)) (sql : String) (first : Bool),
    (∃ kv ∈ entries, findField cls kv.1 = none) →
    ∃ e, compileFilterEntries cls sql first entries = .error e := by
  intro entries
  induction entries with
  | nil =>
    intro sql first h
    simp at h
  | cons kv rest ih =>
    intro sql first h
    obtain ⟨field, subq⟩ := kv
    by_cases hf : findField cls field = none
    · exact ⟨"Cannot query field " ++ sqs ++ field ++ sqs ++ " on class " ++
        sqs ++ cls.cls ++ sqs, by simp [compileFilterEntries, hf]⟩
    · have hrest : ∃ kv ∈ rest, findField cls kv.1 = none := by
        rcases h with ⟨kv', hmem, hnone⟩
        rcases List.mem_cons.mp hmem with h1 | h2
        · rw [h1] at hnone; exact absurd hnone hf
        · exact ⟨kv', h2, hnone⟩
      have hf' : (findField cls field).isNone = false := by
        cases hfind : findField cls field with
        | none => exact absurd hfind hf
        | some g => rfl
      cases subq with
      | null =>
        simpa [compileFilterEntries, hf'] using ih _ false hrest
      | boolean b =>
        simpa [compileFilterEntries, hf'] using ih _ false hrest
      | num n =>
        simpa [compileFilterEntries, hf'] using ih _ false hrest
      | str s =>
        simpa [compileFilterEntries, hf'] using ih _ false hrest
      | arr xs =>
        simpa [compileFilterEntries, hf'] using ih _ false hrest
      | obj kvs =>
        cases hco : compile_class_filter_object (.obj kvs) with
        | error e =>
          exact ⟨e, by simp [compileFilterEntries, hf', hco,
            JsonValue.isString, JsonValue.isNumber, JsonValue.isBoolean,
            JsonValue.isNull, JsonValue.isArray]⟩
        | ok s =>
          simpa [compileFilterEntries, hf', hco, JsonValue.isString,
            JsonValue.isNumber, JsonValue.isBoolean, JsonValue.isNull,
            JsonValue.isArray] using ih _ false hrest

/-- C4 (amended): a filter object containing a key that is not a field
of the class never compiles: compilation fails with some error (the
UnknownField error for that key, unless an earlier entry fails first
with a different compilation error), and the search returns that error
for every executor — the statement never reaches the database. -/
theorem c4_unknown_field_never_executes (idl_ : Parser)
    (search : IdlClassSearch) (cls : Class) (f : JsonValue)
    (hcls : idl_.getClass search.classname = some cls)
    (htab : cls.tablename.isSome)
    (hf : search.filter = some f)
    (hobj : f.isObject = true)
    (hunknown : ∃ kv ∈ f.entriesList, findField cls kv.1 = none) :
    ∃ e, compile_class_filter cls f = .error e ∧
      ∀ dbExec : DbExecutor, idl_class_search idl_ dbExec search = .error e := by
  obtain ⟨e, he⟩ :=
    compileFilterEntries_error cls f.entriesList " WHERE" true hunknown
  have hcf : compile_class_filter cls f = .error e := by
    cases f <;> simp_all [JsonValue.isObject, compile_class_filter,
      JsonValue.entriesList]
  obtain ⟨t, ht⟩ := Option.isSome_iff_exists.mp htab
  refine ⟨e, hcf, fun dbExec => ?_⟩
  have hq : compile_query idl_ search = .error e := by
    simp [compile_query, hcls, ht, hf, hcf, Except.map]
  simp [idl_class_search, hq]

/-- Witness for C4 (amended): searching `aou` with filter
`{"bogus": 1}` fails identically under every executor. -/
theorem c4_unknown_field_never_executes_witness :
    ∃ e, compile_class_filter aou (.obj [("bogus", .num 1)]) = .error e ∧
      ∀ dbExec : DbExecutor,
        idl_class_search regAou dbExec
          { classname := "aou", filter := some (.obj [("bogus", .num 1)]),
            order_by := none, pager := none } = .error e :=
  c4_unknown_field_never_executes regAou
    { classname := "aou", filter := some (.obj [("bogus", .num 1)]),
      order_by := none, pager := none }
    aou (.obj [("bogus", .num 1)]) rfl rfl rfl rfl
    ⟨("bogus", .num 1), List.mem_singleton.mpr rfl, rfl⟩

/-- Counterexample for C4 as stated: a filter containing the unknown
key `bogus` can fail with an UnsupportedOperand error from an earlier
entry rather than with the UnknownField error the claim promises. -/
theorem c4_counterexample :
    findField aou "bogus" = none ∧
    compile_class_filter aou
      (.obj [("id", .obj [("LIKE", .str "x")]), ("bogus", .num 1)]) =
      .error "Unsupported operand: LIKE" ∧
    "Unsupported operand: LIKE" ≠
      "Cannot query field " ++ sqs ++ "bogus" ++ sqs ++ " on class " ++
        sqs ++ "aou" ++ sqs := by
  refine ⟨rfl, rfl, ?_⟩
  intro h
  have := congrArg String.data h
  simp [sqs, String.data_append, sq] at this

/-! ### C8 -/

theorem compile_query_pager_shape (idl_ : Parser) (search : IdlClassSearch)
    (cls : Class) (q : String)
    (hq : compile_query idl_ search = .ok (cls, q)) :
    ∃ base : String,
      q = base ++
        (match search.pager with
         | some p => compile_pager p
         | none => "") := by
  cases hg : idl_.getClass search.classname with
  | none => simp [compile_query, hg] at hq
  | some c =>
    cases ht : c.tablename with
    | none => simp [compile_query, hg, ht] at hq
    | some t =>
      cases hfil : search.filter with
      | none =>
        cases hpg : search.pager with
        | none =>
          exact ⟨q, by simp⟩
        | some p =>
          simp [compile_query, hg, ht, hfil, hpg, Except.map] at hq
          exact ⟨_, hq.2.symm⟩
      | some f =>
        cases hcf : compile_class_filter c f with
        | error e => simp [compile_query, hg, ht, hfil, hcf, Except.map] at hq
        | ok w =>
          cases hpg : search.pager with
          | none =>
            exact ⟨q, by simp⟩
          | some p =>
            simp [compile_query, hg, ht, hfil, hcf, hpg, Except.map] at hq
            exact ⟨_, hq.2.symm⟩

/-- C8: when the search specification carries a pager (limit, offset),
the compiled statement ends with " LIMIT limit OFFSET offset".
(The pager is modelled from the spec; see `Pager`.) -/
theorem c8_pager_suffix (idl_ : Parser) (search : IdlClassSearch)
    (l o : Nat) (cls : Class) (q : String)
    (hp : search.pager = some ⟨l, o⟩)
    (hq : compile_query idl_ search = .ok (cls, q)) :
    ∃ base : String,
      q = base ++ (" LIMIT " ++ toString l ++ " OFFSET " ++ toString o) := by
  obtain ⟨base, hb⟩ := compile_query_pager_shape idl_ search cls q hq
  rw [hp] at hb
  exact ⟨base, hb⟩

/-- Witness for C8: limit 10 and offset 20 yield a statement ending
with " LIMIT 10 OFFSET 20". -/
theorem c8_pager_suffix_witness :
    ∃ base : String,
      "SELECT id, name, parent_ou FROM actor.org_unit LIMIT 10 OFFSET 20" =
        base ++ (" LIMIT " ++ toString (10 : Nat) ++ " OFFSET " ++
          toString (20 : Nat)) :=
  c8_pager_suffix regAou
    { classname := "aou", filter := none, order_by := none,
      pager := some ⟨10, 20⟩ }
    10 20 aou
    "SELECT id, name, parent_ou FROM actor.org_unit LIMIT 10 OFFSET 20"
    rfl rfl

/-! ### C5 -/

theorem objInsert_eq_append (k : String) (v : JsonValue)
    (kvs : List (String × JsonValue)) (h : JsonValue.getKey k kvs = none) :
    JsonValue.objInsert k v kvs = kvs ++ [(k, v)] := by
  induction kvs with
  | nil => rfl
  | cons kv rest ih =>
    obtain ⟨k', v'⟩ := kv
    by_cases hk : k' = k
    · simp [JsonValue.getKey, hk] at h
    · simp only [JsonValue.getKey, hk, if_false] at h
      simp [JsonValue.objInsert, hk, ih h]

theorem getKey_append_none (k : String) (a b : List (String × JsonValue))
    (ha : JsonValue.getKey k a = none) :
    JsonValue.getKey k (a ++ b) = JsonValue.getKey k b := by
  induction a with
  | nil => rfl
  | cons kv rest ih =>
    obtain ⟨k', v'⟩ := kv
    by_cases hk : k' = k
    · simp [JsonValue.getKey, hk] at ha
    · simp only [JsonValue.getKey, hk, if_false] at ha
      simpa [JsonValue.getKey, hk] using ih ha

theorem rowFields_ok (row : PgRow) (fs : List Field) :
    ∀ (idx : Nat) (kvs : List (String × JsonValue)),
    (∀ k, k < fs.length →
      ∃ t v, row.get? (idx + k) = some (t, v) ∧ supportedColType t = true) →
    (∀ f ∈ fs, JsonValue.getKey f.name kvs = none) →
    (fs.map Field.name).Nodup →
    rowFields row fs idx kvs =
      .ok (kvs ++ (fs.map Field.name).zip ((row.drop idx).map Prod.snd)) := by
  induction fs with
  | nil =>
    intro idx kvs _ _ _
    simp [rowFields]
  | cons f rest ih =>
    intro idx kvs hcols hfresh hnodup
    obtain ⟨t, v, hget, hsupp⟩ := hcols 0 (by simp)
    rw [Nat.add_zero] at hget
    have hget' : row[idx]? = some (t, v) := by
      rw [← List.get?_eq_getElem?]; exact hget
    have hcol : col_value_to_json_value row idx = .ok v := by
      simp [col_value_to_json_value, hget', hsupp]
    have hpair := List.getElem?_eq_some_iff.mp hget'
    have hidx : idx < row.length := hpair.1
    have hdrop : row.drop idx = (t, v) :: row.drop (idx + 1) := by
      rw [List.drop_eq_getElem_cons hidx, hpair.2]
    simp only [rowFields, hcol]
    rw [objInsert_eq_append _ _ _ (hfresh f (by simp))]
    rw [ih (idx + 1) (kvs ++ [(f.name, v)]) ?_ ?_ ?_]
    · rw [hdrop]
      simp
    · intro k hk
      have := hcols (k + 1) (by simpa using Nat.succ_lt_succ hk)
      simpa [Nat.add_assoc, Nat.add_comm 1 k] using this
    · intro g hg
      have hg1 : JsonValue.getKey g.name kvs = none :=
        hfresh g (List.mem_cons_of_mem _ hg)
      have hgne : g.name ≠ f.name := by
        intro hEq
        have hmem : f.name ∈ rest.map Field.name := by
          rw [← hEq]; exact List.mem_map_of_mem Field.name hg
        have hnodup' : (f.name :: rest.map Field.name).Nodup := by
          simpa using hnodup
        exact (List.nodup_cons.mp hnodup').1 hmem
      rw [getKey_append_none _ _ _ hg1]
      simp [JsonValue.getKey, hgne.symm]
    · exact (List.nodup_cons.mp hnodup).2

/-- C5: for every class, the field-name sequence emitted after SELECT
by `compile_class_select` is exactly the sequence into which
`row_to_idl` reads successive row columns: the statement selects the
non-virtual names in iteration order, and the row mapper assigns column
k of the row to the k-th of those same names. -/
theorem c5_select_row_mapper_agree (cls : Class) (row : PgRow)
    (hne : nonVirtNames cls ≠ [])
    (hnodup : (nonVirtNames cls).Nodup)
    (hcn : CLASSNAME_KEY ∉ nonVirtNames cls)
    (hcols : ∀ k, k < (nonVirtNames cls).length →
      ∃ t v, row.get? k = some (t, v) ∧ supportedColType t = true) :
    compile_class_select cls = "SELECT " ++ commaList (nonVirtNames cls) ∧
    row_to_idl cls row =
      .ok (.obj ((CLASSNAME_KEY, .str cls.cls) ::
        (nonVirtNames cls).zip (row.map Prod.snd))) := by
  refine ⟨compile_class_select_eq cls hne, ?_⟩
  unfold row_to_idl
  rw [rowFields_ok row (cls.fields.filter (fun f => !f.is_virtual)) 0
    (JsonValue.objInsert CLASSNAME_KEY (.str cls.cls) []) ?_ ?_ ?_]
  · simp [nonVirtNames, JsonValue.objInsert]
  · intro k hk
    have := hcols k (by simpa [nonVirtNames] using hk)
    simpa [Nat.zero_add] using this
  · intro f hf
    have : f.name ∈ nonVirtNames cls := by
      simp only [nonVirtNames]
      exact List.mem_map_of_mem Field.name hf
    have hne' : CLASSNAME_KEY ≠ f.name := fun hEq => hcn (hEq ▸ this)
    simp [JsonValue.objInsert, JsonValue.getKey, hne']
  · simpa [nonVirtNames] using hnodup

/-- Witness for C5 at `aou` with a concrete three-column row. -/
theorem c5_select_row_mapper_agree_witness :
    compile_class_select aou = "SELECT " ++ commaList (nonVirtNames aou) ∧
    row_to_idl aou [("int4", .num 1), ("text", .str "HQ"), ("int4", .null)] =
      .ok (.obj ((CLASSNAME_KEY, .str aou.cls) ::
        (nonVirtNames aou).zip
          (([("int4", .num 1), ("text", .str "HQ"),
             ("int4", .null)] : PgRow).map Prod.snd))) :=
  c5_select_row_mapper_agree aou
    [("int4", .num 1), ("text", .str "HQ"), ("int4", .null)]
    (by decide) (by decide) (by decide)
    (by
      intro k hk
      have hk3 : k < 3 := by simpa [nonVirtNames, aou, mkF] using hk
      interval_cases k
      · exact ⟨"int4", .num 1, rfl, rfl⟩
      · exact ⟨"text", .str "HQ", rfl, rfl⟩
      · exact ⟨"int4", .null, rfl, rfl⟩)

/-! ### C2 lemmas -/

theorem fieldsInsert_eq_append (f : Field) (fields : List Field)
    (h : f.name ∉ fields.map Field.name) :
    fieldsInsert f fields = fields ++ [f] := by
  induction fields with
  | nil => rfl
  | cons g rest ih =>
    simp only [List.map_cons, List.mem_cons] at h
    push_neg at h
    have hgf : ¬ g.name = f.name := fun hEq => h.1 hEq.symm
    simp [fieldsInsert, hgf, ih h.2]

theorem addFieldNodes_snd (fs : List FieldNode) :
    ∀ (fields : List Field) (pos : Nat),
    (addFieldNodes fields pos fs).2 = pos + fs.length := by
  induction fs with
  | nil => intro fields pos; simp [addFieldNodes]
  | cons n rest ih =>
    intro fields pos
    simp only [addFieldNodes, ih, List.length_cons]
    omega

theorem addFieldNodes_append (fs gs : List FieldNode) :
    ∀ (fields : List Field) (pos : Nat),
    addFieldNodes fields pos (fs ++ gs) =
      addFieldNodes (addFieldNodes fields pos fs).1
        (addFieldNodes fields pos fs).2 gs := by
  induction fs with
  | nil => intro fields pos; simp [addFieldNodes]
  | cons n rest ih => intro fields pos; simp [addFieldNodes, ih]

theorem add_field_name (pos : Nat) (n : FieldNode) :
    (add_field pos n).name = n.name := rfl

theorem builtNames (fs : List FieldNode) :
    ∀ pos : Nat,
    ((List.enumFrom pos fs).map (fun p => add_field p.1 p.2)).map Field.name =
      fs.map FieldNode.name := by
  induction fs with
  | nil => intro pos; simp
  | cons n rest ih => intro pos; simp [List.enumFrom_cons, add_field_name, ih]

theorem addFieldNodes_fst (fs : List FieldNode) :
    ∀ (fields : List Field) (pos : Nat),
    (∀ n ∈ fs, n.name ∉ fields.map Field.name) →
    (fs.map FieldNode.name).Nodup →
    (addFieldNodes fields pos fs).1 =
      fields ++ (List.enumFrom pos fs).map (fun p => add_field p.1 p.2) := by
  induction fs with
  | nil => intro fields pos _ _; simp [addFieldNodes]
  | cons n rest ih =>
    intro fields pos hfresh hnodup
    have hnd : (n.name :: rest.map FieldNode.name).Nodup := by simpa using hnodup
    have hins : fieldsInsert (add_field pos n) fields = fields ++ [add_field pos n] :=
      fieldsInsert_eq_append _ _ (by
        rw [add_field_name]; exact hfresh n (by simp))
    simp only [addFieldNodes, hins]
    rw [ih (fields ++ [add_field pos n]) (pos + 1) ?_ ?_]
    · simp [List.enumFrom_cons]
    · intro m hm
      simp only [List.map_append, List.mem_append]
      push_neg
      refine ⟨hfresh m (by simp [hm]), ?_⟩
      simp only [List.map_cons, List.map_nil, List.mem_singleton,
        add_field_name]
      intro hEq
      have hnn : n.name ∈ rest.map FieldNode.name := by
        rw [← hEq]; exact List.mem_map_of_mem FieldNode.name hm
      exact (List.nodup_cons.mp hnd).1 hnn
    · exact (List.nodup_cons.mp hnd).2

theorem addChildren_spec (children : List ClassChild) :
    ∀ (fields : List Field) (links : List Link) (pos : Nat),
    (addChildren fields links pos children).1 =
      (addFieldNodes fields pos (declaredFieldNodes children)).1 ∧
    (addChildren fields links pos children).2.2 =
      pos + (declaredFieldNodes children).length := by
  induction children with
  | nil => intro fields links pos; simp [addChildren, declaredFieldNodes, addFieldNodes]
  | cons c rest ih =>
    intro fields links pos
    cases c with
    | fieldsElem fs =>
      simp only [addChildren, declaredFieldNodes]
      have h1 := ih (addFieldNodes fields pos fs).1 links (addFieldNodes fields pos fs).2
      rw [addFieldNodes_append]
      refine ⟨h1.1, ?_⟩
      rw [h1.2, addFieldNodes_snd]
      simp only [List.length_append]
      omega
    | linksElem ls =>
      simp only [addChildren, declaredFieldNodes]
      exact ih fields _ pos
    | otherElem =>
      simp only [addChildren, declaredFieldNodes]
      exact ih fields links pos

theorem add_auto_fields_eq (fields : List Field) (pos : Nat)
    (h1 : "isnew" ∉ fields.map Field.name)
    (h2 : "ischanged" ∉ fields.map Field.name)
    (h3 : "isdeleted" ∉ fields.map Field.name) :
    add_auto_fields fields pos =
      fields ++ [autoField "isnew" pos, autoField "ischanged" (pos + 1),
        autoField "isdeleted" (pos + 2)] := by
  unfold add_auto_fields
  rw [fieldsInsert_eq_append (autoField "isnew" pos) fields (by
    simpa [autoField] using h1)]
  rw [fieldsInsert_eq_append (autoField "ischanged" (pos + 1)) _ (by
    simp only [List.map_append, List.mem_append, autoField]
    push_neg
    exact ⟨h2, by simp⟩)]
  rw [fieldsInsert_eq_append (autoField "isdeleted" (pos + 2)) _ (by
    simp only [List.map_append, List.mem_append, autoField]
    push_neg
    refine ⟨⟨h3, by simp⟩, by simp⟩)]
  simp [List.append_assoc]

/-- The fully-evaluated field list of `add_class` under the usual
schema sanity conditions (declared names distinct and disjoint from the
bookkeeping names). -/
theorem add_class_fields (node : ClassNode)
    (hnodup : ((declaredFieldNodes node.children).map FieldNode.name).Nodup)
    (hauto : ∀ nm ∈ (declaredFieldNodes node.children).map FieldNode.name,
      nm ∉ AUTO_FIELDS) :
    (add_class node).fields =
      (List.enumFrom 0 (declaredFieldNodes node.children)).map
        (fun p => add_field p.1 p.2) ++
      [autoField "isnew" (declaredFieldNodes node.children).length,
       autoField "ischanged" ((declaredFieldNodes node.children).length + 1),
       autoField "isdeleted" ((declaredFieldNodes node.children).length + 2)] := by
  have hc := addChildren_spec node.children [] [] 0
  have hfst : (addChildren [] [] 0 node.children).1 =
      (List.enumFrom 0 (declaredFieldNodes node.children)).map
        (fun p => add_field p.1 p.2) := by
    rw [hc.1, addFieldNodes_fst _ _ _ (by simp) hnodup]
    simp
  have hpos : (addChildren [] [] 0 node.children).2.2 =
      (declaredFieldNodes node.children).length := by
    rw [hc.2]; simp
  have hnames : ((addChildren [] [] 0 node.children).1).map Field.name =
      (declaredFieldNodes node.children).map FieldNode.name := by
    rw [hfst, builtNames]
  have hnew : "isnew" ∉ ((addChildren [] [] 0 node.children).1).map Field.name := by
    rw [hnames]; intro hmem; exact hauto _ hmem (by simp [AUTO_FIELDS])
  have hchg : "ischanged" ∉ ((addChildren [] [] 0 node.children).1).map Field.name := by
    rw [hnames]; intro hmem; exact hauto _ hmem (by simp [AUTO_FIELDS])
  have hdel : "isdeleted" ∉ ((addChildren [] [] 0 node.children).1).map Field.name := by
    rw [hnames]; intro hmem; exact hauto _ hmem (by simp [AUTO_FIELDS])
  show add_auto_fields (addChildren [] [] 0 node.children).1
      (addChildren [] [] 0 node.children).2.2 = _
  rw [add_auto_fields_eq _ _ hnew hchg hdel, hfst, hpos]

theorem find_built (fs : List FieldNode) :
    ∀ (start k : Nat) (hk : k < fs.length),
    (fs.map FieldNode.name).Nodup →
    List.find? (fun f => f.name = (fs.get ⟨k, hk⟩).name)
      ((List.enumFrom start fs).map (fun p => add_field p.1 p.2)) =
      some (add_field (start + k) (fs.get ⟨k, hk⟩)) := by
  induction fs with
  | nil => intro start k hk; simp at hk
  | cons n rest ih =>
    intro start k hk hnodup
    have hnd : (n.name :: rest.map FieldNode.name).Nodup := by simpa using hnodup
    cases k with
    | zero =>
      simp [List.enumFrom_cons, List.find?_cons, add_field_name]
    | succ k =>
      have hk' : k < rest.length := by simpa using hk
      have hne : n.name ≠ (rest.get ⟨k, hk'⟩).name := by
        intro hEq
        have hmem : n.name ∈ rest.map FieldNode.name := by
          rw [hEq]
          exact List.mem_map_of_mem FieldNode.name (rest.get_mem _ _)
        exact (List.nodup_cons.mp hnd).1 hmem
      have hget : ((n :: rest).get ⟨k + 1, hk⟩) = rest.get ⟨k, hk'⟩ := rfl
      rw [hget]
      simp only [List.enumFrom_cons, List.map_cons, List.find?_cons,
        add_field_name]
      rw [show (decide (n.name = (rest.get ⟨k, hk'⟩).name)) = false by
        simpa using hne]
      have harith : start + (k + 1) = (start + 1) + k := by omega
      rw [harith, ih (start + 1) k hk' (List.nodup_cons.mp hnd).2]

theorem find_auto_none (node : ClassNode) (nm : String)
    (hnm : nm ∈ AUTO_FIELDS)
    (hauto : ∀ n ∈ (declaredFieldNodes node.children).map FieldNode.name,
      n ∉ AUTO_FIELDS) :
    List.find? (fun f => f.name = nm)
      ((List.enumFrom 0 (declaredFieldNodes node.children)).map
        (fun p => add_field p.1 p.2)) = none := by
  rw [List.find?_eq_none]
  intro x hx
  have hxname : x.name ∈ (declaredFieldNodes node.children).map FieldNode.name := by
    have : x.name ∈ ((List.enumFrom 0 (declaredFieldNodes node.children)).map
        (fun p => add_field p.1 p.2)).map Field.name :=
      List.mem_map_of_mem Field.name hx
    rwa [builtNames] at this
  intro hEq
  have hx' : x.name = nm := by simpa using hEq
  exact hauto x.name hxname (hx' ▸ hnm)

/-- C2 (amended): for every class node, the k-th *declared* field node
(0-indexed, virtual or not, across all `<fields>` blocks in document
order) receives array position k, and with N the number of *all*
declared fields the three bookkeeping fields isnew, ischanged,
isdeleted receive positions N, N+1, N+2 in that fixed order,
independent of where the `<links>` blocks or other elements sit. -/
theorem c2_field_positions (node : ClassNode)
    (hnodup : ((declaredFieldNodes node.children).map FieldNode.name).Nodup)
    (hauto : ∀ nm ∈ (declaredFieldNodes node.children).map FieldNode.name,
      nm ∉ AUTO_FIELDS) :
    (∀ k n, (declaredFieldNodes node.children).get? k = some n →
      findField (add_class node) n.name = some (add_field k n)) ∧
    findField (add_class node) "isnew" =
      some (autoField "isnew" (declaredFieldNodes node.children).length) ∧
    findField (add_class node) "ischanged" =
      some (autoField "ischanged" ((declaredFieldNodes node.children).length + 1)) ∧
    findField (add_class node) "isdeleted" =
      some (autoField "isdeleted" ((declaredFieldNodes node.children).length + 2)) := by
  have hfields := add_class_fields node hnodup hauto
  refine ⟨?_, ?_, ?_, ?_⟩
  · intro k n hkn
    obtain ⟨hk, hget⟩ := List.get?_eq_some.mp hkn
    unfold findField
    rw [hfields, List.find?_append]
    rw [← hget]
    have := find_built (declaredFieldNodes node.children) 0 k hk hnodup
    rw [Nat.zero_add] at this
    rw [this]
    rfl
  all_goals
    unfold findField
    rw [hfields, List.find?_append,
      find_auto_none node _ (by simp [AUTO_FIELDS]) hauto]
    simp [List.find?_cons, autoField]

/-- Witness for C2 (amended) at a node with two `<fields>` blocks split
by a `<links>` block: the declared fields get positions 0, 1, 2 and the
bookkeeping fields 3, 4, 5. -/
theorem c2_field_positions_witness :
    findField (add_class cnW) "depth" = some (add_field 2 (fnPlain "depth")) ∧
    findField (add_class cnW) "isnew" = some (autoField "isnew" 3) ∧
    findField (add_class cnW) "ischanged" = some (autoField "ischanged" 4) ∧
    findField (add_class cnW) "isdeleted" = some (autoField "isdeleted" 5) := by
  have h := c2_field_positions cnW (by decide) (by decide)
  exact ⟨h.1 2 (fnPlain "depth") rfl, h.2.1, h.2.2.1, h.2.2.2⟩

/-- Counterexample for C2 as stated: a class declaring two fields, one
of them virtual, has N = 1 non-virtual declared fields, yet isnew gets
array position 2 (the count of all declared fields), not position 1. -/
theorem c2_counterexample :
    ((add_class cnV).fields.filter (fun f => !f.is_virtual)).length = 1 ∧
    (findField (add_class cnV) "isnew").map Field.array_pos = some 2 ∧
    (2 : Nat) ≠ 1 := by
  exact ⟨rfl, rfl, by decide⟩

/-! ### Unfolding lemmas for the codec -/

theorem unpack_null (P : Parser) : unpack P .null = some .null := by
  simp [unpack]

theorem unpack_boolean (P : Parser) (b : Bool) :
    unpack P (.boolean b) = some (.boolean b) := by
  simp [unpack]

theorem unpack_num (P : Parser) (n : Int) :
    unpack P (.num n) = some (.num n) := by
  simp [unpack]

theorem unpack_str (P : Parser) (s : String) :
    unpack P (.str s) = some (.str s) := by
  simp [unpack]

theorem unpack_arr (P : Parser) (xs : List JsonValue) :
    unpack P (.arr xs) = (unpackList P xs).map .arr := by
  simp [unpack]

theorem unpack_obj_plain (P : Parser) (kvs : List (String × JsonValue))
    (h : declassify (.obj kvs) = none) :
    unpack P (.obj kvs) =
      (unpackEntries P kvs).map (fun ws => .obj (JsonValue.objInsertAll [] ws)) := by
  rw [unpack]
  split
  · rename_i c payload hd
    rw [h] at hd
    exact absurd hd (by simp)
  · rfl

theorem unpack_obj_classed (P : Parser) (kvs : List (String × JsonValue))
    (c : String) (es : List JsonValue) (cls : Class)
    (h : declassify (.obj kvs) = some (c, .arr es))
    (hcls : P.getClass c = some cls) :
    unpack P (.obj kvs) =
      (unpackFields P es cls.fields).map (fun fvals =>
        .obj (JsonValue.objInsertAll [] ((CLASSNAME_KEY, .str c) :: fvals))) := by
  rw [unpack]
  split
  · rename_i c' payload hd
    rw [h] at hd
    injection hd with hd
    injection hd with h1 h2
    subst h1
    subst h2
    simp [hcls]
  · rename_i hd
    rw [h] at hd
    exact absurd hd (by simp)

theorem unpack_obj_unknown (P : Parser) (kvs : List (String × JsonValue))
    (c : String) (es : List JsonValue)
    (h : declassify (.obj kvs) = some (c, .arr es))
    (hcls : P.getClass c = none) :
    unpack P (.obj kvs) = none := by
  rw [unpack]
  split
  · rename_i c' payload hd
    rw [h] at hd
    injection hd with hd
    injection hd with h1 h2
    subst h1
    subst h2
    simp [hcls]
  · rename_i hd
    rw [h] at hd
    exact absurd hd (by simp)

theorem unpackList_nil (P : Parser) : unpackList P [] = some [] := by
  simp [unpackList]

theorem unpackList_cons (P : Parser) (x : JsonValue) (xs : List JsonValue) :
    unpackList P (x :: xs) =
      match unpack P x, unpackList P xs with
      | some y, some ys => some (y :: ys)
      | _, _ => none := by
  rw [unpackList]

theorem unpackEntries_nil (P : Parser) : unpackEntries P [] = some [] := by
  simp [unpackEntries]

theorem unpackEntries_cons (P : Parser) (k : String) (v : JsonValue)
    (rest : List (String × JsonValue)) :
    unpackEntries P ((k, v) :: rest) =
      match unpack P v, unpackEntries P rest with
      | some w, some ws => some ((k, w) :: ws)
      | _, _ => none := by
  rw [unpackEntries]

theorem unpackFields_nil (P : Parser) (es : List JsonValue) :
    unpackFields P es [] = some [] := by
  simp [unpackFields]

theorem unpackFields_cons (P : Parser) (es : List JsonValue) (f : Field)
    (fs : List Field) :
    unpackFields P es (f :: fs) =
      match unpack P (es.getD f.array_pos .null), unpackFields P es fs with
      | some w, some ws => some ((f.name, w) :: ws)
      | _, _ => none := by
  rw [unpackFields]

theorem pack_null (P : Parser) : pack P .null = some .null := by
  simp [pack]

theorem pack_boolean (P : Parser) (b : Bool) :
    pack P (.boolean b) = some (.boolean b) := by
  simp [pack]

theorem pack_num (P : Parser) (n : Int) : pack P (.num n) = some (.num n) := by
  simp [pack]

theorem pack_str (P : Parser) (s : String) :
    pack P (.str s) = some (.str s) := by
  simp [pack]

theorem pack_arr (P : Parser) (xs : List JsonValue) :
    pack P (.arr xs) = (packList P xs).map .arr := by
  simp [pack]

theorem pack_obj_plain (P : Parser) (kvs : List (String × JsonValue))
    (h : JsonValue.getKey CLASSNAME_KEY kvs = none) :
    pack P (.obj kvs) =
      (packEntries P kvs).map (fun ws => .obj (JsonValue.objInsertAll [] ws)) := by
  rw [pack, h]

theorem pack_obj_classed (P : Parser) (kvs : List (String × JsonValue))
    (c : String) (cls : Class)
    (h : JsonValue.getKey CLASSNAME_KEY kvs = some (.str c))
    (hcls : P.getClass c = some cls) :
    pack P (.obj kvs) =
      (packFields P kvs (sortByPos cls.fields)).map (fun ps =>
        classify (.arr ps) c) := by
  rw [pack, h]
  simp [JsonValue.asStr, hcls]

theorem packList_nil (P : Parser) : packList P [] = some [] := by
  simp [packList]

theorem packList_cons (P : Parser) (x : JsonValue) (xs : List JsonValue) :
    packList P (x :: xs) =
      match pack P x, packList P xs with
      | some y, some ys => some (y :: ys)
      | _, _ => none := by
  rw [packList]

theorem packEntries_nil (P : Parser) : packEntries P [] = some [] := by
  simp [packEntries]

theorem packEntries_cons (P : Parser) (k : String) (v : JsonValue)
    (rest : List (String × JsonValue)) :
    packEntries P ((k, v) :: rest) =
      match pack P v, packEntries P rest with
      | some w, some ws => some ((k, w) :: ws)
      | _, _ => none := by
  rw [packEntries]

theorem packFields_nil (P : Parser) (kvs : List (String × JsonValue)) :
    packFields P kvs [] = some [] := by
  simp [packFields]

theorem packFields_cons (P : Parser) (kvs : List (String × JsonValue))
    (f : Field) (fs : List Field) :
    packFields P kvs (f :: fs) =
      match pack P ((JsonValue.getKey f.name kvs).getD .null),
            packFields P kvs fs with
      | some w, some ws => some (w :: ws)
      | _, _ => none := by
  rw [packFields]

theorem jeq_arr (xs ys : List JsonValue) :
    jeq (.arr xs) (.arr ys) = jeqList xs ys := by
  rw [jeq]

theorem jeq_obj (a b : List (String × JsonValue)) :
    jeq (.obj a) (.obj b) = ((a.length == b.length) && jeqEntries b a) := by
  rw [jeq]

theorem jeq_str (x y : String) : jeq (.str x) (.str y) = (x == y) := by
  rw [jeq]

theorem jeqList_nil : jeqList [] [] = true := by
  rw [jeqList]

theorem jeqList_cons (x y : JsonValue) (xs ys : List JsonValue) :
    jeqList (x :: xs) (y :: ys) = (jeq x y && jeqList xs ys) := by
  rw [jeqList]

theorem jeqEntries_nil (b : List (String × JsonValue)) :
    jeqEntries b [] = true := by
  rw [jeqEntries]

theorem jeqEntries_cons (b : List (String × JsonValue)) (k : String)
    (v : JsonValue) (rest : List (String × JsonValue)) :
    jeqEntries b ((k, v) :: rest) =
      ((match JsonValue.getKey k b with
        | some w => jeq v w
        | none => false) && jeqEntries b rest) := by
  rw [jeqEntries]

/-! ### Object-list helper lemmas -/

theorem getKey_eq_none_iff (k : String) (l : List (String × JsonValue)) :
    JsonValue.getKey k l = none ↔ ∀ kv ∈ l, kv.1 ≠ k := by
  induction l with
  | nil => simp [JsonValue.getKey]
  | cons kv rest ih =>
    obtain ⟨k', v'⟩ := kv
    by_cases hk : k' = k
    · simp [JsonValue.getKey, hk]
    · simp [JsonValue.getKey, hk, ih]

theorem keysNodup_cons (k : String) (v : JsonValue)
    (rest : List (String × JsonValue)) :
    keysNodup ((k, v) :: rest) =
      (!(JsonValue.getKey k rest).isSome && keysNodup rest) := rfl

theorem getKey_of_get?_nodup (kvs : List (String × JsonValue)) :
    ∀ (i : Nat) (k : String) (v : JsonValue),
    keysNodup kvs = true → kvs.get? i = some (k, v) →
    JsonValue.getKey k kvs = some v := by
  induction kvs with
  | nil => intro i k v _ h; simp at h
  | cons kv rest ih =>
    intro i k v hnodup hget
    obtain ⟨k', v'⟩ := kv
    rw [keysNodup_cons] at hnodup
    have hnd := (Bool.and_eq_true _ _).mp hnodup
    cases i with
    | zero =>
      simp at hget
      simp [JsonValue.getKey, hget.1, hget.2]
    | succ i =>
      simp only [List.get?_cons_succ] at hget
      have hrec := ih i k v hnd.2 hget
      have hkne : k' ≠ k := by
        intro hEq
        have : (JsonValue.getKey k' rest).isSome = true := by
          rw [hEq, hrec]; rfl
        simp [this] at hnd
      simp [JsonValue.getKey, hkne, hrec]

theorem objInsertAll_eq_append (ws : List (String × JsonValue)) :
    ∀ acc : List (String × JsonValue),
    (∀ kv ∈ ws, JsonValue.getKey kv.1 acc = none) →
    keysNodup ws = true →
    JsonValue.objInsertAll acc ws = acc ++ ws := by
  induction ws with
  | nil => intro acc _ _; simp [JsonValue.objInsertAll]
  | cons kv rest ih =>
    intro acc hfresh hnodup
    obtain ⟨k, v⟩ := kv
    rw [keysNodup_cons] at hnodup
    have hnd := (Bool.and_eq_true _ _).mp hnodup
    have hins : JsonValue.objInsert k v acc = acc ++ [(k, v)] :=
      objInsert_eq_append k v acc (hfresh (k, v) (by simp))
    simp only [JsonValue.objInsertAll, hins]
    rw [ih (acc ++ [(k, v)]) ?_ hnd.2]
    · simp
    · intro kv' hkv'
      rw [getKey_append_none _ _ _ (hfresh kv' (by simp [hkv']))]
      have hne : k ≠ kv'.1 := by
        intro hEq
        have hno : JsonValue.getKey k rest = none := by
          cases hg : JsonValue.getKey k rest with
          | none => rfl
          | some w => simp [hg] at hnd
        rw [getKey_eq_none_iff] at hno
        exact hno kv' hkv' hEq.symm
      simp [JsonValue.getKey, hne]

theorem objInsertAll_id (ws : List (String × JsonValue))
    (hnodup : keysNodup ws = true) :
    JsonValue.objInsertAll [] ws = ws := by
  have := objInsertAll_eq_append ws []
    (by intro kv _; rfl) hnodup
  simpa using this

/-! ### Pointwise characterizations of the codec loops -/

theorem unpackList_char (P : Parser) (xs : List JsonValue)
    (h : ∀ x ∈ xs, (unpack P x).isSome) :
    ∃ us, unpackList P xs = some us ∧ us.length = xs.length ∧
      ∀ i x, xs.get? i = some x → us.get? i = unpack P x := by
  induction xs with
  | nil => exact ⟨[], unpackList_nil P, rfl, by intro i x h; simp at h⟩
  | cons x rest ih =>
    obtain ⟨u, hu⟩ := Option.isSome_iff_exists.mp (h x (by simp))
    obtain ⟨us, hus, hlen, hpt⟩ := ih (fun y hy => h y (by simp [hy]))
    refine ⟨u :: us, ?_, by simp [hlen], ?_⟩
    · rw [unpackList_cons, hu, hus]
    · intro i y hy
      cases i with
      | zero => simp at hy; simp [← hy, hu]
      | succ i => simp only [List.get?_cons_succ] at hy ⊢; exact hpt i y hy

theorem packList_char (P : Parser) (xs : List JsonValue)
    (h : ∀ x ∈ xs, (pack P x).isSome) :
    ∃ ps, packList P xs = some ps ∧ ps.length = xs.length ∧
      ∀ i x, xs.get? i = some x → ps.get? i = pack P x := by
  induction xs with
  | nil => exact ⟨[], packList_nil P, rfl, by intro i x h; simp at h⟩
  | cons x rest ih =>
    obtain ⟨u, hu⟩ := Option.isSome_iff_exists.mp (h x (by simp))
    obtain ⟨us, hus, hlen, hpt⟩ := ih (fun y hy => h y (by simp [hy]))
    refine ⟨u :: us, ?_, by simp [hlen], ?_⟩
    · rw [packList_cons, hu, hus]
    · intro i y hy
      cases i with
      | zero => simp at hy; simp [← hy, hu]
      | succ i => simp only [List.get?_cons_succ] at hy ⊢; exact hpt i y hy

theorem unpackEntries_char (P : Parser) (kvs : List (String × JsonValue))
    (h : ∀ kv ∈ kvs, (unpack P kv.2).isSome) :
    ∃ ws, unpackEntries P kvs = some ws ∧ ws.length = kvs.length ∧
      ws.map Prod.fst = kvs.map Prod.fst ∧
      ∀ i k v, kvs.get? i = some (k, v) →
        ∃ w, ws.get? i = some (k, w) ∧ unpack P v = some w := by
  induction kvs with
  | nil =>
    exact ⟨[], unpackEntries_nil P, rfl, rfl, by intro i k v h; simp at h⟩
  | cons kv rest ih =>
    obtain ⟨k, v⟩ := kv
    obtain ⟨w, hw⟩ := Option.isSome_iff_exists.mp (h (k, v) (by simp))
    obtain ⟨ws, hws, hlen, hkeys, hpt⟩ := ih (fun y hy => h y (by simp [hy]))
    refine ⟨(k, w) :: ws, ?_, by simp [hlen], by simp [hkeys], ?_⟩
    · rw [unpackEntries_cons, hw, hws]
    · intro i k' v' hy
      cases i with
      | zero =>
        simp at hy
        exact ⟨w, by simp [hy.1], by rw [← hy.2]; exact hw⟩
      | succ i => simp only [List.get?_cons_succ] at hy ⊢; exact hpt i k' v' hy

theorem packEntries_char (P : Parser) (kvs : List (String × JsonValue))
    (h : ∀ kv ∈ kvs, (pack P kv.2).isSome) :
    ∃ ws, packEntries P kvs = some ws ∧ ws.length = kvs.length ∧
      ws.map Prod.fst = kvs.map Prod.fst ∧
      ∀ i k v, kvs.get? i = some (k, v) →
        ∃ w, ws.get? i = some (k, w) ∧ pack P v = some w := by
  induction kvs with
  | nil =>
    exact ⟨[], packEntries_nil P, rfl, rfl, by intro i k v h; simp at h⟩
  | cons kv rest ih =>
    obtain ⟨k, v⟩ := kv
    obtain ⟨w, hw⟩ := Option.isSome_iff_exists.mp (h (k, v) (by simp))
    obtain ⟨ws, hws, hlen, hkeys, hpt⟩ := ih (fun y hy => h y (by simp [hy]))
    refine ⟨(k, w) :: ws, ?_, by simp [hlen], by simp [hkeys], ?_⟩
    · rw [packEntries_cons, hw, hws]
    · intro i k' v' hy
      cases i with
      | zero =>
        simp at hy
        exact ⟨w, by simp [hy.1], by rw [← hy.2]; exact hw⟩
      | succ i => simp only [List.get?_cons_succ] at hy ⊢; exact hpt i k' v' hy

theorem unpackFields_char (P : Parser) (es : List JsonValue)
    (fs : List Field)
    (h : ∀ f ∈ fs, (unpack P (es.getD f.array_pos .null)).isSome) :
    ∃ fvals, unpackFields P es fs = some fvals ∧ fvals.length = fs.length ∧
      fvals.map Prod.fst = fs.map Field.name ∧
      ∀ i f, fs.get? i = some f →
        ∃ w, fvals.get? i = some (f.name, w) ∧
          unpack P (es.getD f.array_pos .null) = some w := by
  induction fs with
  | nil =>
    exact ⟨[], unpackFields_nil P es, rfl, rfl, by intro i f h; simp at h⟩
  | cons f rest ih =>
    obtain ⟨w, hw⟩ := Option.isSome_iff_exists.mp (h f (by simp))
    obtain ⟨ws, hws, hlen, hkeys, hpt⟩ := ih (fun g hg => h g (by simp [hg]))
    refine ⟨(f.name, w) :: ws, ?_, by simp [hlen], by simp [hkeys], ?_⟩
    · rw [unpackFields_cons, hw, hws]
    · intro i g hy
      cases i with
      | zero =>
        simp at hy
        exact ⟨w, by simp [← hy], by rw [← hy]; exact hw⟩
      | succ i => simp only [List.get?_cons_succ] at hy ⊢; exact hpt i g hy

theorem packFields_char (P : Parser) (kvs : List (String × JsonValue))
    (fs : List Field)
    (h : ∀ f ∈ fs, (pack P ((JsonValue.getKey f.name kvs).getD .null)).isSome) :
    ∃ ps, packFields P kvs fs = some ps ∧ ps.length = fs.length ∧
      ∀ i f, fs.get? i = some f →
        ps.get? i = pack P ((JsonValue.getKey f.name kvs).getD .null) := by
  induction fs with
  | nil => exact ⟨[], packFields_nil P kvs, rfl, by intro i f h; simp at h⟩
  | cons f rest ih =>
    obtain ⟨w, hw⟩ := Option.isSome_iff_exists.mp (h f (by simp))
    obtain ⟨ws, hws, hlen, hpt⟩ := ih (fun g hg => h g (by simp [hg]))
    refine ⟨w :: ws, ?_, by simp [hlen], ?_⟩
    · rw [packFields_cons, hw, hws]
    · intro i g hy
      cases i with
      | zero => simp at hy; simp [← hy, hw]
      | succ i => simp only [List.get?_cons_succ] at hy ⊢; exact hpt i g hy

theorem jeqList_intro (ps es : List JsonValue) :
    ps.length = es.length →
    (∀ i p e, ps.get? i = some p → es.get? i = some e → jeq p e = true) →
    jeqList ps es = true := by
  induction ps generalizing es with
  | nil =>
    intro hlen _
    cases es with
    | nil => exact jeqList_nil
    | cons e es' => simp at hlen
  | cons p ps' ih =>
    intro hlen hpt
    cases es with
    | nil => simp at hlen
    | cons e es' =>
      rw [jeqList_cons, Bool.and_eq_true]
      refine ⟨hpt 0 p e rfl rfl, ih es' (by simpa using hlen) ?_⟩
      intro i a b ha hb
      exact hpt (i + 1) a b (by simpa using ha) (by simpa using hb)

theorem jeqEntries_intro (b a : List (String × JsonValue)) :
    (∀ kv ∈ a, ∃ w, JsonValue.getKey kv.1 b = some w ∧ jeq kv.2 w = true) →
    jeqEntries b a = true := by
  induction a with
  | nil => intro _; exact jeqEntries_nil b
  | cons kv rest ih =>
    intro h
    obtain ⟨k, v⟩ := kv
    obtain ⟨w, hw, hjeq⟩ := h (k, v) (by simp)
    rw [jeqEntries_cons, Bool.and_eq_true]
    exact ⟨by rw [hw]; exact hjeq, ih (fun y hy => h y (by simp [hy]))⟩

/-! ### Well-formedness unfolding lemmas -/

theorem wireWF_arr (P : Parser) (xs : List JsonValue) :
    wireWF P (.arr xs) = wireWFList P xs := by
  rw [wireWF]

theorem wireWF_obj_classed (P : Parser) (kvs : List (String × JsonValue))
    (c : String) (es : List JsonValue)
    (h : declassify (.obj kvs) = some (c, .arr es)) :
    wireWF P (.obj kvs) =
      (match P.getClass c with
       | some cls => (es.length == cls.fields.length) && wireWFList P es
       | none => false) := by
  rw [wireWF]
  split
  · rename_i c' payload hd
    rw [h] at hd
    injection hd with hd
    injection hd with h1 h2
    subst h1
    subst h2
    rfl
  · rename_i hd
    rw [h] at hd
    exact absurd hd (by simp)

theorem wireWF_obj_plain (P : Parser) (kvs : List (String × JsonValue))
    (h : declassify (.obj kvs) = none) :
    wireWF P (.obj kvs) =
      (!(JsonValue.getKey CLASSNAME_KEY kvs).isSome && keysNodup kvs &&
        wireWFEntries P kvs) := by
  rw [wireWF]
  split
  · rename_i c payload hd
    rw [h] at hd
    exact absurd hd (by simp)
  · rfl

theorem wireWFList_nil (P : Parser) : wireWFList P [] = true := by
  rw [wireWFList]

theorem wireWFList_cons (P : Parser) (x : JsonValue) (xs : List JsonValue) :
    wireWFList P (x :: xs) = (wireWF P x && wireWFList P xs) := by
  rw [wireWFList]

theorem wireWFEntries_cons (P : Parser) (k : String) (v : JsonValue)
    (rest : List (String × JsonValue)) :
    wireWFEntries P ((k, v) :: rest) =
      (wireWF P v && wireWFEntries P rest) := by
  rw [wireWFEntries]

theorem wireWFList_mem (P : Parser) (xs : List JsonValue)
    (h : wireWFList P xs = true) : ∀ x ∈ xs, wireWF P x = true := by
  induction xs with
  | nil => intro x hx; simp at hx
  | cons y ys ih =>
    rw [wireWFList_cons, Bool.and_eq_true] at h
    intro x hx
    rcases List.mem_cons.mp hx with h1 | h2
    · rw [h1]; exact h.1
    · exact ih h.2 x h2

theorem wireWFEntries_mem (P : Parser) (kvs : List (String × JsonValue))
    (h : wireWFEntries P kvs = true) : ∀ kv ∈ kvs, wireWF P kv.2 = true := by
  induction kvs with
  | nil => intro kv hkv; simp at hkv
  | cons y ys ih =>
    obtain ⟨k, v⟩ := y
    rw [wireWFEntries_cons, Bool.and_eq_true] at h
    intro kv hkv
    rcases List.mem_cons.mp hkv with h1 | h2
    · rw [h1]; exact h.1
    · exact ih h.2 kv h2

theorem hashWF_arr (P : Parser) (xs : List JsonValue) :
    hashWF P (.arr xs) = hashWFList P xs := by
  rw [hashWF]

theorem hashWF_obj (P : Parser) (kvs : List (String × JsonValue)) :
    hashWF P (.obj kvs) =
      (keysNodup kvs &&
        match JsonValue.getKey CLASSNAME_KEY kvs with
        | some (.str c) =>
          (match P.getClass c with
           | some cls =>
             (kvs.length == cls.fields.length + 1) &&
             cls.fields.all (fun f => (JsonValue.getKey f.name kvs).isSome) &&
             kvs.all (fun kv => (kv.1 == CLASSNAME_KEY) ||
               cls.fields.any (fun f => f.name == kv.1))
           | none => false) &&
          hashWFEntries P kvs
        | some _ => false
        | none => !(declassify (.obj kvs)).isSome && hashWFEntries P kvs) := by
  rw [hashWF]

theorem hashWFList_nil (P : Parser) : hashWFList P [] = true := by
  rw [hashWFList]

theorem hashWFList_cons (P : Parser) (x : JsonValue) (xs : List JsonValue) :
    hashWFList P (x :: xs) = (hashWF P x && hashWFList P xs) := by
  rw [hashWFList]

theorem hashWFEntries_cons (P : Parser) (k : String) (v : JsonValue)
    (rest : List (String × JsonValue)) :
    hashWFEntries P ((k, v) :: rest) =
      (hashWF P v && hashWFEntries P rest) := by
  rw [hashWFEntries]

theorem hashWFList_mem (P : Parser) (xs : List JsonValue)
    (h : hashWFList P xs = true) : ∀ x ∈ xs, hashWF P x = true := by
  induction xs with
  | nil => intro x hx; simp at hx
  | cons y ys ih =>
    rw [hashWFList_cons, Bool.and_eq_true] at h
    intro x hx
    rcases List.mem_cons.mp hx with h1 | h2
    · rw [h1]; exact h.1
    · exact ih h.2 x h2

theorem hashWFEntries_mem (P : Parser) (kvs : List (String × JsonValue))
    (h : hashWFEntries P kvs = true) : ∀ kv ∈ kvs, hashWF P kv.2 = true := by
  induction kvs with
  | nil => intro kv hkv; simp at hkv
  | cons y ys ih =>
    obtain ⟨k, v⟩ := y
    rw [hashWFEntries_cons, Bool.and_eq_true] at h
    intro kv hkv
    rcases List.mem_cons.mp hkv with h1 | h2
    · rw [h1]; exact h.1
    · exact ih h.2 kv h2

/-! ### `declassify`, `classify`, registry and sorting lemmas -/

theorem declassify_inv (kvs : List (String × JsonValue)) (c : String)
    (p : JsonValue) (h : declassify (.obj kvs) = some (c, p)) :
    kvs.length = 2 ∧
    JsonValue.getKey JSON_CLASS_KEY kvs = some (.str c) ∧
    JsonValue.getKey JSON_PAYLOAD_KEY kvs = some p := by
  simp only [declassify] at h
  split at h
  · rename_i hlen
    cases h1 : JsonValue.getKey JSON_CLASS_KEY kvs with
    | none => rw [h1] at h; simp at h
    | some tag =>
      cases h2 : JsonValue.getKey JSON_PAYLOAD_KEY kvs with
      | none => rw [h1, h2] at h; cases tag <;> simp at h
      | some p2 =>
        rw [h1, h2] at h
        cases tag <;> simp at h
        exact ⟨hlen, by rw [h.1], by rw [h.2]⟩
  · simp at h

theorem declassify_classify (p : JsonValue) (c : String) :
    declassify (classify p c) = some (c, p) := by
  simp [declassify, classify, JsonValue.getKey, JSON_CLASS_KEY,
    JSON_PAYLOAD_KEY]

theorem RegWF_getClass (P : Parser) (c : String) (cls : Class)
    (hreg : RegWF P) (h : P.getClass c = some cls) :
    (cls.fields.map Field.name).Nodup ∧
    CLASSNAME_KEY ∉ cls.fields.map Field.name ∧
    (cls.fields.map Field.array_pos).Perm (List.range cls.fields.length) := by
  unfold Parser.getClass at h
  cases hf : P.classes.find? (fun e => e.1 = c) with
  | none => rw [hf] at h; simp at h
  | some e =>
    rw [hf] at h
    simp at h
    have hmem : e ∈ P.classes := List.mem_of_find?_eq_some hf
    have := hreg e hmem
    rw [h] at this
    exact this

theorem insertByPos_perm (f : Field) (l : List Field) :
    (insertByPos f l).Perm (f :: l) := by
  induction l with
  | nil => simp [insertByPos]
  | cons g rest ih =>
    by_cases h : f.array_pos ≤ g.array_pos
    · simp [insertByPos, h]
    · simp only [insertByPos, h, if_false]
      have h1 : (g :: insertByPos f rest).Perm (g :: f :: rest) :=
        List.Perm.cons g ih
      have h2 : (g :: f :: rest).Perm (f :: g :: rest) :=
        List.Perm.swap f g rest
      exact h1.trans h2

theorem sortByPos_perm (l : List Field) : (sortByPos l).Perm l := by
  induction l with
  | nil => rfl
  | cons f rest ih =>
    have h1 : (insertByPos f (sortByPos rest)).Perm (f :: sortByPos rest) :=
      insertByPos_perm f (sortByPos rest)
    exact h1.trans (List.Perm.cons f ih)

theorem insertByPos_pairwise (f : Field) (l : List Field)
    (h : l.Pairwise (fun a b => a.array_pos ≤ b.array_pos)) :
    (insertByPos f l).Pairwise (fun a b => a.array_pos ≤ b.array_pos) := by
  induction l with
  | nil => simp [insertByPos]
  | cons g rest ih =>
    rw [List.pairwise_cons] at h
    by_cases hle : f.array_pos ≤ g.array_pos
    · simp only [insertByPos, hle, if_pos]
      rw [List.pairwise_cons]
      refine ⟨?_, List.pairwise_cons.mpr h⟩
      intro x hx
      rcases List.mem_cons.mp hx with h1 | h2
      · rw [h1]; exact hle
      · exact Nat.le_trans hle (h.1 x h2)
    · simp only [insertByPos, hle, if_neg, if_false]
      rw [List.pairwise_cons]
      refine ⟨?_, ih h.2⟩
      intro x hx
      have hmem : x ∈ f :: rest := (insertByPos_perm f rest).mem_iff.mp hx
      rcases List.mem_cons.mp hmem with h1 | h2
      · rw [h1]; omega
      · exact h.1 x h2

theorem sortByPos_pairwise (l : List Field) :
    (sortByPos l).Pairwise (fun a b => a.array_pos ≤ b.array_pos) := by
  induction l with
  | nil => simp [sortByPos]
  | cons f rest ih => exact insertByPos_pairwise f _ ih

theorem sortByPos_length (l : List Field) :
    (sortByPos l).length = l.length :=
  (sortByPos_perm l).length_eq

theorem sortByPos_map_pos (l : List Field)
    (hperm : (l.map Field.array_pos).Perm (List.range l.length)) :
    (sortByPos l).map Field.array_pos = List.range l.length := by
  have hp : ((sortByPos l).map Field.array_pos).Perm (List.range l.length) :=
    ((sortByPos_perm l).map Field.array_pos).trans hperm
  have hs1 : List.Sorted (fun a b : Nat => a ≤ b)
      ((sortByPos l).map Field.array_pos) :=
    List.Pairwise.map Field.array_pos (fun a b h => h) (sortByPos_pairwise l)
  have hs2 : List.Sorted (fun a b : Nat => a ≤ b) (List.range l.length) :=
    List.pairwise_le_range _
  exact List.eq_of_perm_of_sorted hp hs1 hs2

theorem pos_lt_of_mem (l : List Field)
    (hperm : (l.map Field.array_pos).Perm (List.range l.length))
    (f : Field) (hf : f ∈ l) : f.array_pos < l.length := by
  have : f.array_pos ∈ l.map Field.array_pos :=
    List.mem_map_of_mem Field.array_pos hf
  have := hperm.mem_iff.mp this
  simpa using this

theorem sortByPos_get_pos (l : List Field)
    (hperm : (l.map Field.array_pos).Perm (List.range l.length))
    (j : Nat) (hj : j < l.length) :
    ∃ f, (sortByPos l).get? j = some f ∧ f.array_pos = j ∧ f ∈ l := by
  have hlen : (sortByPos l).length = l.length := sortByPos_length l
  have hjs : j < (sortByPos l).length := by omega
  refine ⟨(sortByPos l).get ⟨j, hjs⟩, List.get?_eq_get hjs, ?_, ?_⟩
  · have hmap := sortByPos_map_pos l hperm
    have h1 : ((sortByPos l).map Field.array_pos).get? j =
        (List.range l.length).get? j := by rw [hmap]
    rw [List.get?_map, List.get?_eq_get hjs, List.get?_range hj] at h1
    simpa using h1
  · exact (sortByPos_perm l).mem_iff.mp ((sortByPos l).get_mem _ _)

theorem sortByPos_get_of_mem (l : List Field)
    (hperm : (l.map Field.array_pos).Perm (List.range l.length))
    (hnodup : (l.map Field.array_pos).Nodup)
    (f : Field) (hf : f ∈ l) :
    (sortByPos l).get? f.array_pos = some f := by
  have hflt : f.array_pos < l.length := pos_lt_of_mem l hperm f hf
  obtain ⟨g, hg, hgpos, hgmem⟩ := sortByPos_get_pos l hperm f.array_pos hflt
  suffices hfg : g = f by rw [hfg] at hg; exact hg
  have hsortnd : ((sortByPos l).map Field.array_pos).Nodup := by
    rw [sortByPos_map_pos l hperm]
    exact List.nodup_range _
  -- both f and g live in `sortByPos l` and share the same position
  have hfmem : f ∈ sortByPos l := (sortByPos_perm l).mem_iff.mpr hf
  have hgmem' : g ∈ sortByPos l := by
    obtain ⟨hlt, hEq⟩ := List.get?_eq_some.mp hg
    rw [← hEq]
    exact (sortByPos l).get_mem _ _
  have hnd : (l.map Field.array_pos).Nodup := hnodup
  -- use injectivity of array_pos over members of l
  have hinj : ∀ a ∈ l, ∀ b ∈ l, a.array_pos = b.array_pos → a = b := by
    intro a ha b hb hab
    exact List.inj_on_of_nodup_map hnd ha hb hab
  exact hinj g hgmem f hf (by rw [hgpos])

theorem getKey_isSome_iff (k : String) (l : List (String × JsonValue)) :
    (JsonValue.getKey k l).isSome = true ↔ k ∈ l.map Prod.fst := by
  induction l with
  | nil => simp [JsonValue.getKey]
  | cons kv rest ih =>
    obtain ⟨k', v'⟩ := kv
    by_cases hk : k' = k
    · simp [JsonValue.getKey, hk]
    · simp [JsonValue.getKey, hk, ih, Ne.symm hk]

theorem keysNodup_iff (l : List (String × JsonValue)) :
    keysNodup l = true ↔ (l.map Prod.fst).Nodup := by
  induction l with
  | nil => simp [keysNodup]
  | cons kv rest ih =>
    obtain ⟨k, v⟩ := kv
    rw [keysNodup_cons]
    simp only [List.map_cons, List.nodup_cons, Bool.and_eq_true,
      Bool.not_eq_true']
    constructor
    · intro ⟨h1, h2⟩
      refine ⟨?_, ih.mp h2⟩
      intro hmem
      have := (getKey_isSome_iff k rest).mpr hmem
      rw [h1] at this
      exact Bool.false_ne_true this
    · intro ⟨h1, h2⟩
      refine ⟨?_, ih.mpr h2⟩
      cases hg : (JsonValue.getKey k rest).isSome with
      | false => rfl
      | true => exact absurd ((getKey_isSome_iff k rest).mp hg) h1

theorem jeq_null_refl : jeq .null .null = true := by rw [jeq]

theorem jeq_boolean_refl (b : Bool) :
    jeq (.boolean b) (.boolean b) = true := by
  rw [jeq]; simp

theorem jeq_num_refl (n : Int) : jeq (.num n) (.num n) = true := by
  rw [jeq]; simp

theorem jeq_str_refl (s : String) : jeq (.str s) (.str s) = true := by
  rw [jeq_str]; simp

theorem get?_exists_of_lt {α : Type} (l : List α) (i : Nat)
    (h : i < l.length) : ∃ a, l.get? i = some a :=
  ⟨l.get ⟨i, h⟩, List.get?_eq_get h⟩

/-- `pack` never turns a non-string into a string. -/
theorem pack_not_str (P : Parser) (v p : JsonValue)
    (h : pack P v = some p) (hv : ∀ s, v ≠ .str s) : ∀ s, p ≠ .str s := by
  cases v with
  | null => rw [pack_null P] at h; injection h with h; rw [← h]; simp
  | boolean b => rw [pack_boolean P b] at h; injection h with h; rw [← h]; simp
  | num n => rw [pack_num P n] at h; injection h with h; rw [← h]; simp
  | str s => exact absurd rfl (hv s)
  | arr xs =>
    rw [pack_arr] at h
    obtain ⟨ys, _, h2⟩ := Option.map_eq_some'.mp h
    rw [← h2]
    simp
  | obj kvs =>
    rw [pack] at h
    split at h
    · rename_i tag htag
      split at h
      · exact absurd h (by simp)
      · rename_i c hc
        split at h
        · exact absurd h (by simp)
        · rename_i cls hcls
          obtain ⟨ps, _, h2⟩ := Option.map_eq_some'.mp h
          rw [← h2]
          simp [classify]
    · obtain ⟨ws, _, h2⟩ := Option.map_eq_some'.mp h
      rw [← h2]
      simp

/-- Entrywise-aligned objects (same keys in the same places, values
related by `pack`) have aligned key lookups. -/
theorem getKey_aligned (P : Parser) (kvs : List (String × JsonValue)) :
    ∀ ws : List (String × JsonValue),
    ws.map Prod.fst = kvs.map Prod.fst →
    (∀ i k v, kvs.get? i = some (k, v) →
      ∃ w, ws.get? i = some (k, w) ∧ pack P v = some w) →
    ∀ k : String,
    (JsonValue.getKey k kvs = none → JsonValue.getKey k ws = none) ∧
    (∀ v, JsonValue.getKey k kvs = some v →
      ∃ w, JsonValue.getKey k ws = some w ∧ pack P v = some w) := by
  induction kvs with
  | nil =>
    intro ws hkeys _ k
    have : ws = [] := by
      cases ws with
      | nil => rfl
      | cons a l => simp at hkeys
    rw [this]
    exact ⟨fun _ => rfl, by intro v h; simp [JsonValue.getKey] at h⟩
  | cons kv rest ih =>
    intro ws hkeys hval k
    obtain ⟨k1, v1⟩ := kv
    cases ws with
    | nil => simp at hkeys
    | cons w1 wr =>
      obtain ⟨w0, hw0, hpk0⟩ := hval 0 k1 v1 rfl
      simp only [List.get?_cons_zero] at hw0
      injection hw0 with hw0
      subst hw0
      simp only [List.map_cons, List.cons.injEq] at hkeys
      by_cases hk : k1 = k
      · refine ⟨?_, ?_⟩
        · intro h
          simp [JsonValue.getKey, hk] at h
        · intro v h
          simp only [JsonValue.getKey, hk, if_pos] at h ⊢
          injection h with h
          exact ⟨w0, rfl, by rw [← h]; exact hpk0⟩
      · have hrec := ih wr ?_ ?_ k
        · refine ⟨?_, ?_⟩
          · intro h
            simp only [JsonValue.getKey, hk, if_neg, if_false] at h ⊢
            exact hrec.1 h
          · intro v h
            simp only [JsonValue.getKey, hk, if_neg, if_false] at h ⊢
            exact hrec.2 v h
        · exact hkeys.2
        · intro i k' v' hget
          exact hval (i + 1) k' v' (by simpa using hget)

/-- A plain (non-declassifiable) object stays non-declassifiable after
its entry values are packed. -/
theorem declassify_none_preserved (P : Parser)
    (kvs ws : List (String × JsonValue))
    (hnone : declassify (.obj kvs) = none)
    (hlen : ws.length = kvs.length)
    (hkeys : ws.map Prod.fst = kvs.map Prod.fst)
    (hval : ∀ i k v, kvs.get? i = some (k, v) →
      ∃ w, ws.get? i = some (k, w) ∧ pack P v = some w) :
    declassify (.obj ws) = none := by
  have halign := getKey_aligned P kvs ws hkeys hval
  simp only [declassify] at hnone ⊢
  by_cases h2 : ws.length = 2
  · have hk2 : kvs.length = 2 := by omega
    rw [if_pos h2]
    rw [if_pos hk2] at hnone
    cases hc : JsonValue.getKey JSON_CLASS_KEY kvs with
    | none =>
      rw [(halign JSON_CLASS_KEY).1 hc]
    | some tag =>
      obtain ⟨w, hw, hpk⟩ := (halign JSON_CLASS_KEY).2 tag hc
      rw [hw]
      cases hp : JsonValue.getKey JSON_PAYLOAD_KEY kvs with
      | none =>
        rw [(halign JSON_PAYLOAD_KEY).1 hp]
        cases w <;> rfl
      | some pay =>
        rw [hc, hp] at hnone
        cases tag with
        | str s => simp at hnone
        | null =>
          have := pack_not_str P .null w hpk (by simp)
          cases w <;> first | rfl | (exact absurd rfl (this _))
        | boolean b =>
          have := pack_not_str P (.boolean b) w hpk (by simp)
          cases w <;> first | rfl | (exact absurd rfl (this _))
        | num n =>
          have := pack_not_str P (.num n) w hpk (by simp)
          cases w <;> first | rfl | (exact absurd rfl (this _))
        | arr xs =>
          have := pack_not_str P (.arr xs) w hpk (by simp)
          cases w <;> first | rfl | (exact absurd rfl (this _))
        | obj o =>
          have := pack_not_str P (.obj o) w hpk (by simp)
          cases w <;> first | rfl | (exact absurd rfl (this _))
  · rw [if_neg h2]

theorem getKey_sizeOf_lt (k : String) (kvs : List (String × JsonValue))
    (w : JsonValue) (h : JsonValue.getKey k kvs = some w) :
    sizeOf w < sizeOf kvs := by
  induction kvs with
  | nil => exact absurd h (by simp [JsonValue.getKey])
  | cons kv rest ih =>
    obtain ⟨k0, v0⟩ := kv
    by_cases hk : k0 = k
    · simp only [JsonValue.getKey, hk, if_pos] at h
      injection h with h
      subst h
      simp
      omega
    · simp only [JsonValue.getKey, hk, if_neg, if_false] at h
      have := ih h
      simp
      omega

theorem wireWF_obj_classed_gen (P : Parser) (kvs : List (String × JsonValue))
    (c : String) (payload : JsonValue)
    (h : declassify (.obj kvs) = some (c, payload)) :
    wireWF P (.obj kvs) =
      (match payload with
       | .arr es =>
         match P.getClass c with
         | some cls => (es.length == cls.fields.length) && wireWFList P es
         | none => false
       | _ => false) := by
  rw [wireWF]
  split
  · rename_i c' payload' hd
    rw [h] at hd
    injection hd with hd
    injection hd with h1 h2
    subst h1
    subst h2
    rfl
  · rename_i hd
    rw [h] at hd
    exact absurd hd (by simp)

theorem getKey_mem (k : String) (kvs : List (String × JsonValue))
    (v : JsonValue) (h : JsonValue.getKey k kvs = some v) : (k, v) ∈ kvs := by
  induction kvs with
  | nil => exact absurd h (by simp [JsonValue.getKey])
  | cons kv rest ih =>
    obtain ⟨k0, v0⟩ := kv
    by_cases hk : k0 = k
    · simp only [JsonValue.getKey, hk, if_pos] at h
      injection h with h
      subst h
      subst hk
      exact List.mem_cons_self _ _
    · simp only [JsonValue.getKey, hk, if_neg, if_false] at h
      exact List.mem_cons_of_mem _ (ih h)

/-- Direction A of the codec round trip: on wire-well-formed input,
`unpack` succeeds and `pack` of the result succeeds and is `jeq`-equal
to the input. -/
theorem codec_unpack_pack (P : Parser) (hreg : RegWF P) :
    ∀ (n : Nat) (x : JsonValue), sizeOf x ≤ n → wireWF P x = true →
      ∃ u p, unpack P x = some u ∧ pack P u = some p ∧ jeq p x = true := by
  intro n
  induction n with
  | zero =>
    intro x hx _
    have hpos : 0 < sizeOf x := by cases x <;> simp <;> omega
    exact absurd hx (by omega)
  | succ n IH =>
    intro x hx hwf
    cases x with
    | null => exact ⟨_, _, unpack_null P, pack_null P, jeq_null_refl⟩
    | boolean b =>
      exact ⟨_, _, unpack_boolean P b, pack_boolean P b, jeq_boolean_refl b⟩
    | num m => exact ⟨_, _, unpack_num P m, pack_num P m, jeq_num_refl m⟩
    | str s => exact ⟨_, _, unpack_str P s, pack_str P s, jeq_str_refl s⟩
    | arr xs =>
      rw [wireWF_arr] at hwf
      have hszel : ∀ y ∈ xs, sizeOf y ≤ n := by
        intro y hy
        have h1 := List.sizeOf_lt_of_mem hy
        have h2 : sizeOf (JsonValue.arr xs) ≤ n + 1 := hx
        simp at h2
        omega
      have hpt : ∀ y ∈ xs, ∃ u p, unpack P y = some u ∧
          pack P u = some p ∧ jeq p y = true :=
        fun y hy => IH y (hszel y hy) (wireWFList_mem P xs hwf y hy)
      obtain ⟨us, hus, hlenu, hchu⟩ := unpackList_char P xs (by
        intro y hy
        obtain ⟨u, p, h1, _, _⟩ := hpt y hy
        rw [h1]
        rfl)
      have hpackSome : ∀ u ∈ us, (pack P u).isSome := by
        intro u hu
        obtain ⟨i, hi⟩ := List.mem_iff_get?.mp hu
        have hilt : i < xs.length := by
          obtain ⟨h5, _⟩ := List.get?_eq_some.mp hi
          omega
        obtain ⟨y, hy⟩ := get?_exists_of_lt xs i hilt
        obtain ⟨u0, p0, h1, h2, h3⟩ := hpt y (List.get?_mem hy)
        have heq : us.get? i = some u0 := by rw [hchu i y hy, h1]
        rw [hi] at heq
        injection heq with heq
        rw [heq, h2]
        rfl
      obtain ⟨ps, hps, hlenp, hchp⟩ := packList_char P us hpackSome
      refine ⟨.arr us, .arr ps, ?_, ?_, ?_⟩
      · rw [unpack_arr, hus]
        rfl
      · rw [pack_arr, hps]
        rfl
      · rw [jeq_arr]
        apply jeqList_intro
        · omega
        · intro i p0 y hp0 hy
          obtain ⟨u0, p1, h1, h2, h3⟩ := hpt y (List.get?_mem hy)
          have hu0 : us.get? i = some u0 := by rw [hchu i y hy, h1]
          have hp1 : ps.get? i = some p1 := by rw [hchp i u0 hu0, h2]
          rw [hp0] at hp1
          injection hp1 with hp1
          rw [hp1]
          exact h3
    | obj kvs =>
      cases hd : declassify (.obj kvs) with
      | some cp =>
        obtain ⟨c, payload⟩ := cp
        rw [wireWF_obj_classed_gen P kvs c payload hd] at hwf
        cases payload with
        | arr es =>
          cases hcls : P.getClass c with
          | none =>
            rw [hcls] at hwf
            exact absurd hwf (by simp)
          | some cls =>
            rw [hcls] at hwf
            simp only [Bool.and_eq_true, beq_iff_eq] at hwf
            obtain ⟨hlen_es, hwfes0⟩ := hwf
            have hwfes := wireWFList_mem P es hwfes0
            obtain ⟨hnodupN, hcnN, hperm⟩ := RegWF_getClass P c cls hreg hcls
            obtain ⟨h2len, hck, hpk⟩ := declassify_inv kvs c (.arr es) hd
            have hszes : ∀ y ∈ es, sizeOf y ≤ n := by
              intro y hy
              have h1 := List.sizeOf_lt_of_mem hy
              have h2 := getKey_sizeOf_lt JSON_PAYLOAD_KEY kvs (.arr es) hpk
              have h3 : sizeOf (JsonValue.obj kvs) ≤ n + 1 := hx
              simp at h2 h3
              omega
            have hposlt : ∀ f ∈ cls.fields, f.array_pos < es.length := by
              intro f hf
              rw [hlen_es]
              exact pos_lt_of_mem _ hperm f hf
            have hptF : ∀ f ∈ cls.fields,
                ∃ u p, unpack P (es.getD f.array_pos .null) = some u ∧
                  pack P u = some p ∧
                  jeq p (es.getD f.array_pos .null) = true := by
              intro f hf
              have hlt := hposlt f hf
              rw [List.getD_eq_getElem es _ hlt]
              have hmem : es[f.array_pos] ∈ es := es.getElem_mem hlt
              exact IH _ (hszes _ hmem) (hwfes _ hmem)
            obtain ⟨fvals, hfv, hfvlen, hfvkeys, hfvpt⟩ :=
              unpackFields_char P es cls.fields (by
                intro f hf
                obtain ⟨u, p, h1, _, _⟩ := hptF f hf
                rw [h1]
                rfl)
            have hfvnd : keysNodup fvals = true := by
              rw [keysNodup_iff, hfvkeys]
              exact hnodupN
            have hcnNone :
                JsonValue.getKey CLASSNAME_KEY fvals = none := by
              rw [getKey_eq_none_iff]
              intro kv hkv hEq
              have hmem : kv.1 ∈ cls.fields.map Field.name := by
                rw [← hfvkeys]
                exact List.mem_map_of_mem Prod.fst hkv
              rw [hEq] at hmem
              exact hcnN hmem
            have hkeysnd :
                keysNodup ((CLASSNAME_KEY, JsonValue.str c) :: fvals) = true := by
              rw [keysNodup_cons, hcnNone]
              simp only [Option.isSome_none, Bool.not_false, Bool.true_and]
              exact hfvnd
            have hu : unpack P (.obj kvs) =
                some (.obj ((CLASSNAME_KEY, .str c) :: fvals)) := by
              rw [unpack_obj_classed P kvs c es cls hd hcls, hfv]
              simp [objInsertAll_id _ hkeysnd]
            have hgetCN : JsonValue.getKey CLASSNAME_KEY
                ((CLASSNAME_KEY, JsonValue.str c) :: fvals) = some (.str c) := by
              simp [JsonValue.getKey]
            have hfieldlookup : ∀ f ∈ cls.fields,
                ∃ w, JsonValue.getKey f.name
                    ((CLASSNAME_KEY, JsonValue.str c) :: fvals) = some w ∧
                  ∃ p0, pack P w = some p0 ∧
                    jeq p0 (es.getD f.array_pos .null) = true := by
              intro f hf
              obtain ⟨i, hi⟩ := List.mem_iff_get?.mp hf
              obtain ⟨w, hwi, hwu⟩ := hfvpt i f hi
              obtain ⟨u0, p0, h1, h2, h3⟩ := hptF f hf
              rw [h1] at hwu
              injection hwu with hwu
              rw [hwu] at h2
              have hne : CLASSNAME_KEY ≠ f.name := by
                intro hEq
                exact hcnN (hEq ▸ List.mem_map_of_mem Field.name hf)
              have hgk : JsonValue.getKey f.name fvals = some w :=
                getKey_of_get?_nodup fvals i f.name w hfvnd hwi
              refine ⟨w, ?_, p0, h2, h3⟩
              simp [JsonValue.getKey, hne, hgk]
            obtain ⟨ps, hps, hpslen, hpspt⟩ :=
              packFields_char P ((CLASSNAME_KEY, JsonValue.str c) :: fvals)
                (sortByPos cls.fields) (by
                  intro f hf
                  have hf2 : f ∈ cls.fields :=
                    (sortByPos_perm cls.fields).mem_iff.mp hf
                  obtain ⟨w, hw, p0, hp0, _⟩ := hfieldlookup f hf2
                  rw [hw]
                  simp [hp0])
            have hp : pack P (.obj ((CLASSNAME_KEY, JsonValue.str c) :: fvals)) =
                some (classify (.arr ps) c) := by
              rw [pack_obj_classed P _ c cls hgetCN hcls, hps]
              rfl
            refine ⟨_, _, hu, hp, ?_⟩
            show jeq (.obj [(JSON_CLASS_KEY, JsonValue.str c),
              (JSON_PAYLOAD_KEY, .arr ps)]) (.obj kvs) = true
            rw [jeq_obj, Bool.and_eq_true]
            constructor
            · simp [h2len]
            · apply jeqEntries_intro
              intro kv hkv
              rcases List.mem_cons.mp hkv with h1 | h1
              · rw [h1]
                exact ⟨.str c, hck, jeq_str_refl c⟩
              · have h1 : kv = (JSON_PAYLOAD_KEY, JsonValue.arr ps) := by
                  simpa using h1
                rw [h1]
                refine ⟨.arr es, hpk, ?_⟩
                show jeq (.arr ps) (.arr es) = true
                rw [jeq_arr]
                apply jeqList_intro
                · rw [hpslen, sortByPos_length, ← hlen_es]
                · intro i p0 e0 hp0 he0
                  have hilt : i < cls.fields.length := by
                    obtain ⟨h5, _⟩ := List.get?_eq_some.mp hp0
                    rw [hpslen, sortByPos_length] at h5
                    exact h5
                  obtain ⟨f, hfi, hfpos, hfmem⟩ :=
                    sortByPos_get_pos cls.fields hperm i hilt
                  have hpi := hpspt i f hfi
                  obtain ⟨w, hw, p1, hp1, h3⟩ := hfieldlookup f hfmem
                  rw [hw] at hpi
                  simp only [Option.getD_some] at hpi
                  rw [hp1] at hpi
                  rw [hp0] at hpi
                  injection hpi with hpi
                  have hlt2 : i < es.length := by
                    obtain ⟨h5, _⟩ := List.get?_eq_some.mp he0
                    exact h5
                  have hgd : es.getD f.array_pos .null = e0 := by
                    rw [hfpos, List.getD_eq_getElem es _ hlt2]
                    have h5 : es.get? i = some e0 := he0
                    rw [List.get?_eq_getElem?] at h5
                    obtain ⟨_, h6⟩ := List.getElem?_eq_some_iff.mp h5
                    exact h6
                  rw [hpi, ← hgd]
                  exact h3
        | null =>
          exact absurd hwf (by simp)
        | boolean b =>
          exact absurd hwf (by simp)
        | num m =>
          exact absurd hwf (by simp)
        | str s =>
          exact absurd hwf (by simp)
        | obj o =>
          exact absurd hwf (by simp)
      | none =>
        rw [wireWF_obj_plain P kvs hd] at hwf
        rw [Bool.and_eq_true, Bool.and_eq_true] at hwf
        obtain ⟨⟨hnc, hnd⟩, hents⟩ := hwf
        have hnone : JsonValue.getKey CLASSNAME_KEY kvs = none := by
          cases hg : JsonValue.getKey CLASSNAME_KEY kvs with
          | none => rfl
          | some w => rw [hg] at hnc; simp at hnc
        have hszv : ∀ kv ∈ kvs, sizeOf kv.2 ≤ n := by
          intro kv hkv
          have h1 := List.sizeOf_lt_of_mem hkv
          have h2 : sizeOf kv.2 < sizeOf kv := by
            obtain ⟨a, b⟩ := kv
            simp
          have h3 : sizeOf (JsonValue.obj kvs) ≤ n + 1 := hx
          simp at h3
          omega
        have hptE : ∀ kv ∈ kvs, ∃ u p, unpack P kv.2 = some u ∧
            pack P u = some p ∧ jeq p kv.2 = true :=
          fun kv hkv => IH kv.2 (hszv kv hkv) (wireWFEntries_mem P kvs hents kv hkv)
        obtain ⟨ws, hws, hwslen, hwskeys, hwspt⟩ :=
          unpackEntries_char P kvs (by
            intro kv hkv
            obtain ⟨u, p, h1, _, _⟩ := hptE kv hkv
            rw [h1]
            rfl)
        have hwsnd : keysNodup ws = true := by
          rw [keysNodup_iff, hwskeys, ← keysNodup_iff]
          exact hnd
        have hu : unpack P (.obj kvs) = some (.obj ws) := by
          rw [unpack_obj_plain P kvs hd, hws]
          simp [objInsertAll_id _ hwsnd]
        have hnc2 : JsonValue.getKey CLASSNAME_KEY ws = none := by
          cases hg : JsonValue.getKey CLASSNAME_KEY ws with
          | none => rfl
          | some w =>
            have h5 : (JsonValue.getKey CLASSNAME_KEY ws).isSome = true := by
              rw [hg]
              rfl
            rw [getKey_isSome_iff, hwskeys, ← getKey_isSome_iff] at h5
            rw [hnone] at h5
            exact absurd h5 (by simp)
        have hpackSome : ∀ kv ∈ ws, (pack P kv.2).isSome := by
          intro kv hkv
          obtain ⟨i, hi⟩ := List.mem_iff_get?.mp hkv
          have hilt : i < kvs.length := by
            obtain ⟨h5, _⟩ := List.get?_eq_some.mp hi
            omega
          obtain ⟨⟨k0, v0⟩, hkv0⟩ := get?_exists_of_lt kvs i hilt
          obtain ⟨w, hwi, hwu⟩ := hwspt i k0 v0 hkv0
          rw [hi] at hwi
          injection hwi with hwi
          obtain ⟨u, p, h1, h2, h3⟩ := hptE (k0, v0) (List.get?_mem hkv0)
          rw [h1] at hwu
          injection hwu with hwu
          rw [hwi]
          show (pack P w).isSome = true
          rw [← hwu, h2]
          rfl
        obtain ⟨ws2, hws2, hws2len, hws2keys, hws2pt⟩ :=
          packEntries_char P ws hpackSome
        have hws2nd : keysNodup ws2 = true := by
          rw [keysNodup_iff, hws2keys, ← keysNodup_iff]
          exact hwsnd
        have hp : pack P (.obj ws) = some (.obj ws2) := by
          rw [pack_obj_plain P ws hnc2, hws2]
          simp [objInsertAll_id _ hws2nd]
        refine ⟨_, _, hu, hp, ?_⟩
        rw [jeq_obj, Bool.and_eq_true]
        constructor
        · simp [hws2len, hwslen]
        · apply jeqEntries_intro
          intro kv hkv
          obtain ⟨i, hi⟩ := List.mem_iff_get?.mp hkv
          have hilt : i < kvs.length := by
            obtain ⟨h5, _⟩ := List.get?_eq_some.mp hi
            omega
          obtain ⟨⟨k0, v0⟩, hkv0⟩ := get?_exists_of_lt kvs i hilt
          obtain ⟨w, hwi, hwu⟩ := hwspt i k0 v0 hkv0
          obtain ⟨w2, hw2i, hw2p⟩ := hws2pt i k0 w hwi
          rw [hi] at hw2i
          injection hw2i with hw2i
          have hg0 : JsonValue.getKey k0 kvs = some v0 :=
            getKey_of_get?_nodup kvs i k0 v0 hnd hkv0
          obtain ⟨u, p, h1, h2, h3⟩ := hptE (k0, v0) (List.get?_mem hkv0)
          rw [h1] at hwu
          injection hwu with hwu
          rw [hwu] at h2
          rw [h2] at hw2p
          injection hw2p with hw2p
          rw [hw2i]
          exact ⟨v0, hg0, by rw [← hw2p]; exact h3⟩

/-- Direction B of the codec round trip: on hash-well-formed input,
`pack` succeeds and `unpack` of the result succeeds and is `jeq`-equal
to the input. -/
theorem codec_pack_unpack (P : Parser) (hreg : RegWF P) :
    ∀ (n : Nat) (x : JsonValue), sizeOf x ≤ n → hashWF P x = true →
      ∃ p u, pack P x = some p ∧ unpack P p = some u ∧ jeq u x = true := by
  intro n
  induction n with
  | zero =>
    intro x hx _
    have hpos : 0 < sizeOf x := by cases x <;> simp <;> omega
    exact absurd hx (by omega)
  | succ n IH =>
    intro x hx hwf
    cases x with
    | null => exact ⟨_, _, pack_null P, unpack_null P, jeq_null_refl⟩
    | boolean b =>
      exact ⟨_, _, pack_boolean P b, unpack_boolean P b, jeq_boolean_refl b⟩
    | num m => exact ⟨_, _, pack_num P m, unpack_num P m, jeq_num_refl m⟩
    | str s => exact ⟨_, _, pack_str P s, unpack_str P s, jeq_str_refl s⟩
    | arr xs =>
      rw [hashWF_arr] at hwf
      have hszel : ∀ y ∈ xs, sizeOf y ≤ n := by
        intro y hy
        have h1 := List.sizeOf_lt_of_mem hy
        have h2 : sizeOf (JsonValue.arr xs) ≤ n + 1 := hx
        simp at h2
        omega
      have hpt : ∀ y ∈ xs, ∃ p u, pack P y = some p ∧
          unpack P p = some u ∧ jeq u y = true :=
        fun y hy => IH y (hszel y hy) (hashWFList_mem P xs hwf y hy)
      obtain ⟨ps, hps, hlenp, hchp⟩ := packList_char P xs (by
        intro y hy
        obtain ⟨p, u, h1, _, _⟩ := hpt y hy
        rw [h1]
        rfl)
      have hunpSome : ∀ p ∈ ps, (unpack P p).isSome := by
        intro p hp
        obtain ⟨i, hi⟩ := List.mem_iff_get?.mp hp
        have hilt : i < xs.length := by
          obtain ⟨h5, _⟩ := List.get?_eq_some.mp hi
          omega
        obtain ⟨y, hy⟩ := get?_exists_of_lt xs i hilt
        obtain ⟨p0, u0, h1, h2, h3⟩ := hpt y (List.get?_mem hy)
        have heq : ps.get? i = some p0 := by rw [hchp i y hy, h1]
        rw [hi] at heq
        injection heq with heq
        rw [heq, h2]
        rfl
      obtain ⟨us, hus, hlenu, hchu⟩ := unpackList_char P ps hunpSome
      refine ⟨.arr ps, .arr us, ?_, ?_, ?_⟩
      · rw [pack_arr, hps]
        rfl
      · rw [unpack_arr, hus]
        rfl
      · rw [jeq_arr]
        apply jeqList_intro
        · omega
        · intro i u0 y hu0 hy
          obtain ⟨p0, u1, h1, h2, h3⟩ := hpt y (List.get?_mem hy)
          have hp0 : ps.get? i = some p0 := by rw [hchp i y hy, h1]
          have hu1 : us.get? i = some u1 := by rw [hchu i p0 hp0, h2]
          rw [hu0] at hu1
          injection hu1 with hu1
          rw [hu1]
          exact h3
    | obj kvs =>
      rw [hashWF_obj, Bool.and_eq_true] at hwf
      obtain ⟨hnd, hm⟩ := hwf
      cases hget : JsonValue.getKey CLASSNAME_KEY kvs with
      | none =>
        rw [hget] at hm
        rw [Bool.and_eq_true] at hm
        obtain ⟨hdec0, hents⟩ := hm
        have hdecn : declassify (.obj kvs) = none := by
          cases hg : declassify (.obj kvs) with
          | none => rfl
          | some cp => rw [hg] at hdec0; simp at hdec0
        have hszv : ∀ kv ∈ kvs, sizeOf kv.2 ≤ n := by
          intro kv hkv
          have h1 := List.sizeOf_lt_of_mem hkv
          have h2 : sizeOf kv.2 < sizeOf kv := by
            obtain ⟨a, b⟩ := kv
            simp
          have h3 : sizeOf (JsonValue.obj kvs) ≤ n + 1 := hx
          simp at h3
          omega
        have hptE : ∀ kv ∈ kvs, ∃ p u, pack P kv.2 = some p ∧
            unpack P p = some u ∧ jeq u kv.2 = true :=
          fun kv hkv =>
            IH kv.2 (hszv kv hkv) (hashWFEntries_mem P kvs hents kv hkv)
        obtain ⟨ws, hws, hwslen, hwskeys, hwspt⟩ :=
          packEntries_char P kvs (by
            intro kv hkv
            obtain ⟨p, u, h1, _, _⟩ := hptE kv hkv
            rw [h1]
            rfl)
        have hwsnd : keysNodup ws = true := by
          rw [keysNodup_iff, hwskeys, ← keysNodup_iff]
          exact hnd
        have hp : pack P (.obj kvs) = some (.obj ws) := by
          rw [pack_obj_plain P kvs hget, hws]
          simp [objInsertAll_id _ hwsnd]
        have hdecn2 : declassify (.obj ws) = none :=
          declassify_none_preserved P kvs ws hdecn hwslen hwskeys hwspt
        have hunpSome : ∀ kv ∈ ws, (unpack P kv.2).isSome := by
          intro kv hkv
          obtain ⟨i, hi⟩ := List.mem_iff_get?.mp hkv
          have hilt : i < kvs.length := by
            obtain ⟨h5, _⟩ := List.get?_eq_some.mp hi
            omega
          obtain ⟨⟨k0, v0⟩, hkv0⟩ := get?_exists_of_lt kvs i hilt
          obtain ⟨w, hwi, hwp⟩ := hwspt i k0 v0 hkv0
          rw [hi] at hwi
          injection hwi with hwi
          obtain ⟨p, u, h1, h2, h3⟩ := hptE (k0, v0) (List.get?_mem hkv0)
          rw [h1] at hwp
          injection hwp with hwp
          rw [hwi]
          show (unpack P w).isSome = true
          rw [← hwp, h2]
          rfl
        obtain ⟨us, hus, huslen, huskeys, huspt⟩ :=
          unpackEntries_char P ws hunpSome
        have husnd : keysNodup us = true := by
          rw [keysNodup_iff, huskeys, ← keysNodup_iff]
          exact hwsnd
        have hu : unpack P (.obj ws) = some (.obj us) := by
          rw [unpack_obj_plain P ws hdecn2, hus]
          simp [objInsertAll_id _ husnd]
        refine ⟨_, _, hp, hu, ?_⟩
        rw [jeq_obj, Bool.and_eq_true]
        constructor
        · simp [huslen, hwslen]
        · apply jeqEntries_intro
          intro kv hkv
          obtain ⟨i, hi⟩ := List.mem_iff_get?.mp hkv
          have hilt : i < kvs.length := by
            obtain ⟨h5, _⟩ := List.get?_eq_some.mp hi
            omega
          obtain ⟨⟨k0, v0⟩, hkv0⟩ := get?_exists_of_lt kvs i hilt
          obtain ⟨w, hwi, hwp⟩ := hwspt i k0 v0 hkv0
          obtain ⟨u, hui, huw⟩ := huspt i k0 w hwi
          rw [hi] at hui
          injection hui with hui
          have hg0 : JsonValue.getKey k0 kvs = some v0 :=
            getKey_of_get?_nodup kvs i k0 v0 hnd hkv0
          obtain ⟨p, u1, h1, h2, h3⟩ := hptE (k0, v0) (List.get?_mem hkv0)
          rw [h1] at hwp
          injection hwp with hwp
          rw [hwp] at h2
          rw [h2] at huw
          injection huw with huw
          rw [hui]
          exact ⟨v0, hg0, by rw [← huw]; exact h3⟩
      | some tag =>
        rw [hget] at hm
        cases tag with
        | null => exact absurd hm (by simp)
        | boolean b => exact absurd hm (by simp)
        | num m2 => exact absurd hm (by simp)
        | arr a => exact absurd hm (by simp)
        | obj o => exact absurd hm (by simp)
        | str c =>
          have hm2 : ((match P.getClass c with
              | some cls =>
                (kvs.length == cls.fields.length + 1) &&
                cls.fields.all (fun f => (JsonValue.getKey f.name kvs).isSome) &&
                kvs.all (fun kv => (kv.1 == CLASSNAME_KEY) ||
                  cls.fields.any (fun f => f.name == kv.1))
              | none => false) &&
              hashWFEntries P kvs) = true := hm
          cases hcls : P.getClass c with
          | none =>
            rw [hcls] at hm2
            exact absurd hm2 (by simp)
          | some cls =>
            rw [hcls] at hm2
            simp only [Bool.and_eq_true] at hm2
            obtain ⟨⟨⟨hlen1, hall1⟩, hall2⟩, hents⟩ := hm2
            have hlen : kvs.length = cls.fields.length + 1 := by
              simpa using hlen1
            have hsome : ∀ f ∈ cls.fields,
                (JsonValue.getKey f.name kvs).isSome = true := by
              rw [List.all_eq_true] at hall1
              exact hall1
            obtain ⟨hnodupN, hcnN, hperm⟩ := RegWF_getClass P c cls hreg hcls
            have hposnd : (cls.fields.map Field.array_pos).Nodup :=
              (hperm.nodup_iff).mpr (List.nodup_range _)
            have hIHf : ∀ f ∈ cls.fields,
                ∃ v p u, JsonValue.getKey f.name kvs = some v ∧
                  pack P v = some p ∧ unpack P p = some u ∧
                  jeq u v = true := by
              intro f hf
              obtain ⟨v, hv⟩ := Option.isSome_iff_exists.mp (hsome f hf)
              have hmem := getKey_mem f.name kvs v hv
              have hwfv := hashWFEntries_mem P kvs hents (f.name, v) hmem
              have hszv : sizeOf v ≤ n := by
                have h1 := getKey_sizeOf_lt f.name kvs v hv
                have h3 : sizeOf (JsonValue.obj kvs) ≤ n + 1 := hx
                simp at h3
                omega
              obtain ⟨p, u, h1, h2, h3⟩ := IH v hszv hwfv
              exact ⟨v, p, u, hv, h1, h2, h3⟩
            obtain ⟨ps, hps, hpslen, hpspt⟩ :=
              packFields_char P kvs (sortByPos cls.fields) (by
                intro f hf
                have hf2 : f ∈ cls.fields :=
                  (sortByPos_perm cls.fields).mem_iff.mp hf
                obtain ⟨v, p, u, hv, hp2, _, _⟩ := hIHf f hf2
                rw [hv]
                simp [hp2])
            have hgd : ∀ f ∈ cls.fields, ∀ v p,
                JsonValue.getKey f.name kvs = some v → pack P v = some p →
                ps.getD f.array_pos .null = p := by
              intro f hf v p hv hp2
              have hflt : f.array_pos < ps.length := by
                rw [hpslen, sortByPos_length]
                exact pos_lt_of_mem _ hperm f hf
              have hsg : (sortByPos cls.fields).get? f.array_pos = some f :=
                sortByPos_get_of_mem cls.fields hperm hposnd f hf
              have hpi := hpspt f.array_pos f hsg
              rw [hv] at hpi
              simp only [Option.getD_some] at hpi
              rw [hp2] at hpi
              rw [List.getD_eq_getElem ps _ hflt]
              rw [List.get?_eq_getElem?] at hpi
              obtain ⟨_, h6⟩ := List.getElem?_eq_some_iff.mp hpi
              exact h6
            obtain ⟨fvals, hfv, hfvlen, hfvkeys, hfvpt⟩ :=
              unpackFields_char P ps cls.fields (by
                intro f hf
                obtain ⟨v, p, u, hv, hp2, hu2, _⟩ := hIHf f hf
                rw [hgd f hf v p hv hp2, hu2]
                rfl)
            have hfvnd : keysNodup fvals = true := by
              rw [keysNodup_iff, hfvkeys]
              exact hnodupN
            have hcnNone :
                JsonValue.getKey CLASSNAME_KEY fvals = none := by
              rw [getKey_eq_none_iff]
              intro kv hkv hEq
              have hmem : kv.1 ∈ cls.fields.map Field.name := by
                rw [← hfvkeys]
                exact List.mem_map_of_mem Prod.fst hkv
              rw [hEq] at hmem
              exact hcnN hmem
            have hkeysnd :
                keysNodup ((CLASSNAME_KEY, JsonValue.str c) :: fvals) = true := by
              rw [keysNodup_cons, hcnNone]
              simp only [Option.isSome_none, Bool.not_false, Bool.true_and]
              exact hfvnd
            have hdc : declassify (.obj [(JSON_CLASS_KEY, JsonValue.str c),
                (JSON_PAYLOAD_KEY, JsonValue.arr ps)]) = some (c, .arr ps) :=
              declassify_classify (.arr ps) c
            have hu : unpack P (.obj [(JSON_CLASS_KEY, JsonValue.str c),
                (JSON_PAYLOAD_KEY, JsonValue.arr ps)]) =
                some (.obj ((CLASSNAME_KEY, JsonValue.str c) :: fvals)) := by
              rw [unpack_obj_classed P _ c ps cls hdc hcls, hfv]
              simp [objInsertAll_id _ hkeysnd]
            have hpk : pack P (.obj kvs) = some (classify (.arr ps) c) := by
              rw [pack_obj_classed P kvs c cls hget hcls, hps]
              rfl
            refine ⟨classify (.arr ps) c,
              .obj ((CLASSNAME_KEY, JsonValue.str c) :: fvals), hpk, hu, ?_⟩
            rw [jeq_obj, Bool.and_eq_true]
            constructor
            · simp [hfvlen, hlen]
            · apply jeqEntries_intro
              intro kv hkv
              rcases List.mem_cons.mp hkv with h1 | h1
              · rw [h1]
                exact ⟨.str c, hget, jeq_str_refl c⟩
              · obtain ⟨i, hi⟩ := List.mem_iff_get?.mp h1
                have hilt : i < cls.fields.length := by
                  obtain ⟨h5, _⟩ := List.get?_eq_some.mp hi
                  omega
                obtain ⟨f, hf⟩ := get?_exists_of_lt cls.fields i hilt
                obtain ⟨w, hwi, hwu⟩ := hfvpt i f hf
                rw [hi] at hwi
                injection hwi with hwi
                have hfmem : f ∈ cls.fields := List.get?_mem hf
                obtain ⟨v, p, u, hv, hp2, hu2, h3⟩ := hIHf f hfmem
                rw [hgd f hfmem v p hv hp2] at hwu
                rw [hu2] at hwu
                injection hwu with hwu
                rw [hwi]
                exact ⟨v, hv, by rw [← hwu]; exact h3⟩

theorem wfClaim_str (P : Parser) (s : String) : wfClaim P (.str s) = true := by
  rw [wfClaim]

theorem wfClaimEntries_nil (P : Parser) : wfClaimEntries P [] = true := by
  rw [wfClaimEntries]

theorem wfClaimEntries_cons (P : Parser) (k : String) (v : JsonValue)
    (rest : List (String × JsonValue)) :
    wfClaimEntries P ((k, v) :: rest) =
      (wfClaim P v && wfClaimEntries P rest) := by
  rw [wfClaimEntries]

theorem wfClaim_obj_plain (P : Parser) (kvs : List (String × JsonValue))
    (h : declassify (.obj kvs) = none) :
    wfClaim P (.obj kvs) = wfClaimEntries P kvs := by
  rw [wfClaim]
  split
  · rename_i c payload hd
    rw [h] at hd
    exact absurd hd (by simp)
  · rfl

/-- C1 (corrected): for every registry whose classes have distinct
non-reserved field names and array positions exactly `0..n-1`, and
every value `x`: if `x` is wire-well-formed then `unpack` succeeds and
`pack` of the result is `jeq`-equal to `x`; and if `x` is
hash-well-formed then `pack` succeeds and `unpack` of the result is
`jeq`-equal to `x`.  (The claim's own weaker well-formedness is not
enough: see the counterexample.) -/
theorem c1_codec_roundtrip (P : Parser) (x : JsonValue) (hreg : RegWF P) :
    (wireWF P x = true →
      ∃ u p, unpack P x = some u ∧ pack P u = some p ∧ jeq p x = true) ∧
    (hashWF P x = true →
      ∃ p u, pack P x = some p ∧ unpack P p = some u ∧ jeq u x = true) :=
  ⟨fun h => codec_unpack_pack P hreg (sizeOf x) x (Nat.le_refl _) h,
   fun h => codec_pack_unpack P hreg (sizeOf x) x (Nat.le_refl _) h⟩

theorem c1_codec_roundtrip_witness :
    RegWF regC ∧
    ((wireWF regC px0 = true →
      ∃ u p, unpack regC px0 = some u ∧ pack regC u = some p ∧
        jeq p px0 = true) ∧
     (hashWF regC px0 = true →
      ∃ p u, pack regC px0 = some p ∧ unpack regC p = some u ∧
        jeq u px0 = true)) :=
  ⟨by unfold RegWF; decide,
   c1_codec_roundtrip regC px0 (by unfold RegWF; decide)⟩

/-- C1 counterexample: `x0` is well-formed by the claim's own notion
(it contains no classed array at all), yet `pack (unpack x0)`, which
is `pack x0 = px0`, is not `jeq`-equal to `x0`: `pack` treats every
object carrying `_classname` as a classed hash and rebuilds it from
the class's field list, so the malformed hash gains a payload entry
per field and changes shape. -/
theorem c1_counterexample :
    wfClaim regC x0 = true ∧
    unpack regC x0 = some x0 ∧
    pack regC x0 = some px0 ∧
    jeq px0 x0 = false := by
  refine ⟨?_, ?_, ?_, ?_⟩
  · show wfClaim regC (.obj [(CLASSNAME_KEY, .str "c")]) = true
    rw [wfClaim_obj_plain regC [(CLASSNAME_KEY, .str "c")] rfl,
      wfClaimEntries_cons, wfClaim_str,
      wfClaimEntries_nil]
    rfl
  · show unpack regC (.obj [(CLASSNAME_KEY, .str "c")]) =
      some (.obj [(CLASSNAME_KEY, .str "c")])
    rw [unpack_obj_plain regC [(CLASSNAME_KEY, .str "c")] rfl,
      unpackEntries_cons, unpack_str,
      unpackEntries_nil]
    rfl
  · show pack regC (.obj [(CLASSNAME_KEY, .str "c")]) = some px0
    rw [pack_obj_classed regC [(CLASSNAME_KEY, .str "c")] "c"
      (add_class cnMin) rfl rfl]
    have hsort : sortByPos (add_class cnMin).fields =
        [autoField "isnew" 0, autoField "ischanged" 1,
         autoField "isdeleted" 2] := rfl
    rw [hsort, packFields_cons, packFields_cons, packFields_cons,
      packFields_nil]
    have hgd : ∀ nm : String,
        (JsonValue.getKey nm [(CLASSNAME_KEY, JsonValue.str "c")]).getD
          JsonValue.null = JsonValue.null ∨
        (JsonValue.getKey nm [(CLASSNAME_KEY, JsonValue.str "c")]).getD
          JsonValue.null = JsonValue.str "c" := by
      intro nm
      by_cases h : CLASSNAME_KEY = nm
      · right
        simp [JsonValue.getKey, h]
      · left
        simp [JsonValue.getKey, h]
    have h1 : (JsonValue.getKey (autoField "isnew" 0).name
        [(CLASSNAME_KEY, JsonValue.str "c")]).getD JsonValue.null =
        JsonValue.null := rfl
    have h2 : (JsonValue.getKey (autoField "ischanged" 1).name
        [(CLASSNAME_KEY, JsonValue.str "c")]).getD JsonValue.null =
        JsonValue.null := rfl
    have h3 : (JsonValue.getKey (autoField "isdeleted" 2).name
        [(CLASSNAME_KEY, JsonValue.str "c")]).getD JsonValue.null =
        JsonValue.null := rfl
    rw [h1, h2, h3, pack_null]
    rfl
  · show jeq (.obj [(JSON_CLASS_KEY, JsonValue.str "c"),
      (JSON_PAYLOAD_KEY, .arr [.null, .null, .null])])
      (.obj [(CLASSNAME_KEY, .str "c")]) = false
    rw [jeq_obj]
    simp

theorem unpackList_none_of_mem (P : Parser) (xs : List JsonValue)
    (x : JsonValue) (hx : x ∈ xs) (h : unpack P x = none) :
    unpackList P xs = none := by
  induction xs with
  | nil => simp at hx
  | cons y ys ih =>
    rw [unpackList_cons]
    rcases List.mem_cons.mp hx with h1 | h1
    · rw [h1] at h
      rw [h]
    · rw [ih h1]
      cases unpack P y <;> rfl

theorem unpackEntries_none_of_mem (P : Parser)
    (kvs : List (String × JsonValue)) (k : String) (x : JsonValue)
    (hx : (k, x) ∈ kvs) (h : unpack P x = none) :
    unpackEntries P kvs = none := by
  induction kvs with
  | nil => simp at hx
  | cons kv ys ih =>
    obtain ⟨k0, v0⟩ := kv
    rw [unpackEntries_cons]
    rcases List.mem_cons.mp hx with h1 | h1
    · injection h1 with h1a h1b
      rw [← h1b, h]
    · rw [ih h1]
      cases unpack P v0 <;> rfl

/-- C7 (code_bug support): when a classed container names a class the
registry does not know, `unpack` aborts — modelled as `none`, standing
for the `unwrap` panic inside `array_to_hash` — and so does `unpack` of
any array or plain object containing that container: the unrecognized
classed array is never passed through unexpanded, but no error value is
ever returned either. -/
theorem c7_unknown_class_panics (P : Parser)
    (kvs : List (String × JsonValue)) (c : String) (es : List JsonValue)
    (hd : declassify (.obj kvs) = some (c, .arr es))
    (hcls : P.getClass c = none) :
    unpack P (.obj kvs) = none ∧
    (∀ xs : List JsonValue, JsonValue.obj kvs ∈ xs →
      unpack P (.arr xs) = none) ∧
    (∀ (kvs2 : List (String × JsonValue)) (k : String),
      (k, JsonValue.obj kvs) ∈ kvs2 → declassify (.obj kvs2) = none →
      unpack P (.obj kvs2) = none) := by
  have h0 : unpack P (.obj kvs) = none := unpack_obj_unknown P kvs c es hd hcls
  refine ⟨h0, ?_, ?_⟩
  · intro xs hx
    rw [unpack_arr, unpackList_none_of_mem P xs _ hx h0]
    rfl
  · intro kvs2 k hk hdec
    rw [unpack_obj_plain P kvs2 hdec,
      unpackEntries_none_of_mem P kvs2 k _ hk h0]
    rfl

theorem c7_unknown_class_panics_witness :
    declassify (.obj [(JSON_CLASS_KEY, JsonValue.str "x"),
        (JSON_PAYLOAD_KEY, JsonValue.arr [])]) = some ("x", .arr []) ∧
    regC.getClass "x" = none ∧
    (unpack regC (.obj [(JSON_CLASS_KEY, JsonValue.str "x"),
        (JSON_PAYLOAD_KEY, JsonValue.arr [])]) = none ∧
     (∀ xs : List JsonValue,
        JsonValue.obj [(JSON_CLASS_KEY, JsonValue.str "x"),
          (JSON_PAYLOAD_KEY, JsonValue.arr [])] ∈ xs →
        unpack regC (.arr xs) = none) ∧
     (∀ (kvs2 : List (String × JsonValue)) (k : String),
        (k, JsonValue.obj [(JSON_CLASS_KEY, JsonValue.str "x"),
          (JSON_PAYLOAD_KEY, JsonValue.arr [])]) ∈ kvs2 →
        declassify (.obj kvs2) = none →
        unpack regC (.obj kvs2) = none)) :=
  ⟨rfl, rfl,
   c7_unknown_class_panics regC
     [(JSON_CLASS_KEY, JsonValue.str "x"), (JSON_PAYLOAD_KEY, JsonValue.arr [])]
     "x" [] rfl rfl⟩

end Evergreen
